import Mathlib

/-!
Verification of the xsd2js schema-analysis pipeline against its specification.

The JavaScript sources are shallowly embedded:

* parsed XML / XSD trees (outputs of fast-xml-parser or the xml2js
  normalizer) are modelled by the inductive `Val`: an element is an object
  mapping keys to values, repeated children are arrays, attribute values and
  text content are strings;
* JS truthiness, property lookup, `ensureArray`, object assignment and
  deletion are modelled by explicit helper functions;
* the in-place mutations performed by `parser.js` are modelled by returning
  the updated tree alongside the main result.
-/

/-- A JavaScript value as produced by the XML parsers used by the pipeline:
a string (text content, attribute value, or empty element), an object
(an element node, keys to values, in insertion order), or an array
(repeated children). -/
inductive Val where
  | vStr (s : String)
  | vObj (fields : List (String × Val))
  | vArr (elems : List Val)
deriving Repr

mutual

/-- Decidable equality on `Val` (hand-rolled: `deriving` does not handle the
nested `List` occurrences). -/
def decEqVal : (a b : Val) → Decidable (a = b)
  | .vStr a, .vStr b =>
    match String.decEq a b with
    | isTrue h => isTrue (by rw [h])
    | isFalse h => isFalse (fun he => h (Val.vStr.inj he))
  | .vStr _, .vObj _ => isFalse (fun h => Val.noConfusion h)
  | .vStr _, .vArr _ => isFalse (fun h => Val.noConfusion h)
  | .vObj _, .vStr _ => isFalse (fun h => Val.noConfusion h)
  | .vObj a, .vObj b =>
    match decEqValFields a b with
    | isTrue h => isTrue (by rw [h])
    | isFalse h => isFalse (fun he => h (Val.vObj.inj he))
  | .vObj _, .vArr _ => isFalse (fun h => Val.noConfusion h)
  | .vArr _, .vStr _ => isFalse (fun h => Val.noConfusion h)
  | .vArr _, .vObj _ => isFalse (fun h => Val.noConfusion h)
  | .vArr a, .vArr b =>
    match decEqValList a b with
    | isTrue h => isTrue (by rw [h])
    | isFalse h => isFalse (fun he => h (Val.vArr.inj he))

/-- Decidable equality on field lists of `Val` objects. -/
def decEqValFields : (a b : List (String × Val)) → Decidable (a = b)
  | [], [] => isTrue rfl
  | [], _ :: _ => isFalse (fun h => List.noConfusion h)
  | _ :: _, [] => isFalse (fun h => List.noConfusion h)
  | (k, v) :: r, (k', v') :: r' =>
    match String.decEq k k' with
    | isFalse h => isFalse (fun he => h (congrArg (fun l => (l.headD (k, v)).1) he))
    | isTrue hk =>
      match decEqVal v v' with
      | isFalse h => isFalse (fun he => h (congrArg (fun l => (l.headD (k, v)).2) he))
      | isTrue hv =>
        match decEqValFields r r' with
        | isTrue hr => isTrue (by rw [hk, hv, hr])
        | isFalse h => isFalse (fun he => h (List.tail_eq_of_cons_eq he))

/-- Decidable equality on lists of `Val`. -/
def decEqValList : (a b : List Val) → Decidable (a = b)
  | [], [] => isTrue rfl
  | [], _ :: _ => isFalse (fun h => List.noConfusion h)
  | _ :: _, [] => isFalse (fun h => List.noConfusion h)
  | v :: r, v' :: r' =>
    match decEqVal v v' with
    | isFalse h => isFalse (fun he => h (List.head_eq_of_cons_eq he))
    | isTrue hv =>
      match decEqValList r r' with
      | isTrue hr => isTrue (by rw [hv, hr])
      | isFalse h => isFalse (fun he => h (List.tail_eq_of_cons_eq he))

end

instance : DecidableEq Val := decEqVal

/-- JS object property read, first binding wins (JS objects have unique keys;
reads on strings and arrays yield `undefined` for the keys this pipeline
uses, modelled as `none`). -/
def getF : Val → String → Option Val
  | .vObj fields, k => fields.lookup k
  | _, _ => none

/-- JS truthiness of a value: the empty string is falsy, every other string,
every object and every array is truthy. -/
def truthy : Val → Bool
  | .vStr s => !s.isEmpty
  | .vObj _ => true
  | .vArr _ => true

/-- JS truthiness of a possibly-`undefined` value. -/
def truthyO : Option Val → Bool
  | none => false
  | some v => truthy v

/-- Read a property expected to hold a string (attribute values such as
`@_name`, `@_type`, `@_maxOccurs` are strings in parser output). -/
def getStr (v : Val) (k : String) : Option String :=
  match getF v k with
  | some (.vStr s) => some s
  | _ => none

/-- `ensureArray` from `src/utils.js`: a falsy value gives `[]`, an array is
returned as is, anything else is wrapped in a one-element array. -/
def ensureArray : Option Val → List Val
  | none => []
  | some v =>
    if truthy v then
      match v with
      | .vArr l => l
      | x => [x]
    else []

/-- JS `a || b` on an optional string: the first operand when it is a
truthy (non-empty) string, otherwise the default. -/
def jsOrStr (v : Option String) (d : String) : String :=
  match v with
  | some s => if s.isEmpty then d else s
  | none => d

/-- JS assignment `obj[k] = v`: replaces the first binding of `k` in place,
or appends a new binding at the end. -/
def objSet : List (String × Val) → String → Val → List (String × Val)
  | [], k, v => [(k, v)]
  | (k', v') :: rest, k, v =>
    if k' = k then (k, v) :: rest else (k', v') :: objSet rest k v

/-- JS `delete obj[k]`: removes every binding of `k` (JS objects hold at
most one). -/
def objDel (fields : List (String × Val)) (k : String) : List (String × Val) :=
  fields.filter (fun p => p.1 ≠ k)

/-- `ref.replace(/^.*:/, "")` from the sources: strip everything up to the
last colon of a qualified name. -/
def stripQualifier (s : String) : String :=
  String.mk ((s.data.reverse.takeWhile (fun c => c ≠ ':')).reverse)

example : stripQualifier "tns:Foo" = "Foo" := rfl
example : stripQualifier "Foo" = "Foo" := rfl
example : ensureArray (some (.vStr "")) = [] := rfl
example : ensureArray (some (.vArr [.vStr "a"])) = [.vStr "a"] := rfl

/-!
Embedding of `src/propertyExtractor.js` (`extractProperties`,
`processContentModel`, `containsXSDAny`). `XSD_PREFIX` is the constant
`"xs:"`; the `xs:`-prefixed keys below are those literals spelled out.
-/

/-- One property descriptor as pushed by `processItem` /
`extractProperties`. Fields `type`, `xsdType` hold `item["@_type"]` /
`extension["@_base"]`, which may be `undefined` (`none`). The text-value
property pushed in the simple-content branch carries no `nillable` / `isAny`
keys in JS; every consumer reads those keys with JS truthiness, for which
the absent key and `false` coincide, so they are modelled as `false`. -/
structure Property where
  name : String
  xmlName : String
  type : Option String
  isList : Bool
  xsdType : Option String
  isAttribute : Bool
  nillable : Bool
  isAny : Bool
deriving DecidableEq, Repr

/-- The configuration options read by `extractProperties`
(`config["text-attribute-name"]`, `config["transparent-attributes"]`). -/
structure Config where
  textAttributeName : Option String
  transparentAttributes : Bool

mutual

/-- `containsXSDAny` from `src/propertyExtractor.js`: recursively search a
parsed node for a truthy `xs:any` entry; non-object leaves contain none. -/
def containsXSDAny : Val → Bool
  | .vStr _ => false
  | .vObj fields => truthyO (fields.lookup "xs:any") || anyFieldContainsXSDAny fields
  | .vArr elems => anyElemContainsXSDAny elems

/-- The `for (const k of Object.keys(node))` loop of `containsXSDAny` over an
object's values. -/
def anyFieldContainsXSDAny : List (String × Val) → Bool
  | [] => false
  | (_, v) :: rest => containsXSDAny v || anyFieldContainsXSDAny rest

/-- The array branch of `containsXSDAny`'s key loop. -/
def anyElemContainsXSDAny : List Val → Bool
  | [] => false
  | v :: rest => containsXSDAny v || anyElemContainsXSDAny rest

end

/-- The `originalName` computed by `processItem`: attribute names carry the
`@_` marker. -/
def originalNameOf (isAttribute : Bool) (nm : String) : String :=
  if isAttribute then "@_" ++ nm else nm

/-- The `userFacingName` computed by `processItem`: with
`transparent-attributes` the `@_` marker is stripped from the user-facing
name (the `xmlName` keeps it). -/
def resolveName (config : Config) (isAttribute : Bool) (nm : String) : String :=
  let originalName := originalNameOf isAttribute nm
  if config.transparentAttributes && originalName.startsWith "@_" then
    originalName.drop 2
  else originalName

/-- The `isAny` flag computed by `processItem`: the item (or its possibly
anonymous `xs:complexType`) contains an `xs:any` wildcard. -/
def itemIsAny (item : Val) : Bool :=
  containsXSDAny item ||
    (truthyO (getF item "xs:complexType") &&
      containsXSDAny ((getF item "xs:complexType").getD (.vStr "")))

/-- The property descriptor pushed by `processItem` for an item whose
`@_name` is `nm`. -/
def itemProperty (config : Config) (item : Val) (isAttribute forceList : Bool)
    (nm : String) : Property :=
  { name := resolveName config isAttribute nm
    xmlName := originalNameOf isAttribute nm
    type := getStr item "@_type"
    isList := forceList || (!isAttribute && getStr item "@_maxOccurs" == some "unbounded")
    xsdType := getStr item "@_type"
    isAttribute := isAttribute
    nillable := getStr item "@_nillable" == some "true"
    isAny := itemIsAny item }

/-- `processItem` from `extractProperties`: resolve the user-facing name,
skip unnamed items (a missing or empty `@_name` is falsy) and duplicates,
and append the property descriptor. `properties` is the list being
accumulated; the JS closure mutates it in place, modelled by returning the
extended list. -/
def processItem (config : Config) (properties : List Property) (item : Val)
    (isAttribute : Bool) (forceList : Bool) : List Property :=
  match getStr item "@_name" with
  | none => properties
  | some nm =>
    if nm.isEmpty then properties
    else if properties.any (fun p => p.name = resolveName config isAttribute nm) then
      properties
    else properties ++ [itemProperty config item isAttribute forceList nm]

/-- The `xs:choice` member-element loop of `processContentModel` (lines
34-40 of `src/propertyExtractor.js`): elements within a choice are
flattened into the parent's property list, forced to lists when the choice
itself carries `maxOccurs="unbounded"`. -/
def flattenChoice (config : Config) (choice : Val) (properties : List Property) :
    List Property :=
  let isUnboundedChoice := getStr choice "@_maxOccurs" == some "unbounded"
  (ensureArray (getF choice "xs:element")).foldl
    (fun ps el => processItem config ps el false isUnboundedChoice) properties

/-- `processContentModel` from `src/propertyExtractor.js`. The JS recursion
is unbounded (it diverges on cyclic `xs:group` references, which re-enter
via `groupMap`); `fuel` bounds the recursion depth, and every claim proved
about this model is quantified over all fuels, so it covers every
terminating run of the source. At fuel `0` the accumulated properties are
returned unchanged. -/
def processContentModel (config : Config) (groupMap : String → Option Val) :
    Nat → Val → List Property → List Property
  | 0, _, properties => properties
  | fuel + 1, node, properties =>
    let ps1 := (ensureArray (getF node "xs:sequence")).foldl
      (fun ps sq => processContentModel config groupMap fuel sq ps) properties
    let ps2 := (ensureArray (getF node "xs:choice")).foldl
      (fun ps choice =>
        processContentModel config groupMap fuel choice (flattenChoice config choice ps)) ps1
    let ps3 := (ensureArray (getF node "xs:group")).foldl
      (fun ps groupRef =>
        match getStr groupRef "@_ref" with
        | some r =>
          match groupMap (stripQualifier r) with
          | some groupDef => processContentModel config groupMap fuel groupDef ps
          | none => ps
        | none => ps) ps2
    (ensureArray (getF node "xs:element")).foldl
      (fun ps el => processItem config ps el false false) ps3

/-- The text-value property pushed by the simple-content branch of
`extractProperties`. -/
def textProperty (config : Config) (extension : Val) : Property :=
  { name := jsOrStr config.textAttributeName "value"
    xmlName := "#text"
    type := some (jsOrStr (getStr extension "@_base") "xs:string")
    isList := false
    xsdType := getStr extension "@_base"
    isAttribute := false
    nillable := false
    isAny := false }

/-- `extractProperties` from `src/propertyExtractor.js`: the three content
models (simple content, complex content, direct), followed by the type's
own attributes and attribute-group references. `fuel` is inherited by
`processContentModel` (see there). -/
def extractProperties (fuel : Nat) (typeNode : Val) (config : Config)
    (groupMap attrGroupMap : String → Option Val) : List Property :=
  let simpleContent := getF typeNode "xs:simpleContent"
  let complexContent := getF typeNode "xs:complexContent"
  if truthyO simpleContent then
    let sc := simpleContent.getD (.vStr "")
    if truthyO (getF sc "xs:extension") then
      let extension := (getF sc "xs:extension").getD (.vStr "")
      let ps := [textProperty config extension]
      (ensureArray (getF extension "xs:attribute")).foldl
        (fun ps attr => processItem config ps attr true false) ps
    else []
  else
    let ps1 :=
      if truthyO complexContent then
        let cc := complexContent.getD (.vStr "")
        if truthyO (getF cc "xs:extension") then
          let extension := (getF cc "xs:extension").getD (.vStr "")
          let ps := processContentModel config groupMap fuel extension []
          (ensureArray (getF extension "xs:attribute")).foldl
            (fun ps attr => processItem config ps attr true false) ps
        else []
      else
        processContentModel config groupMap fuel typeNode []
    let ps2 := (ensureArray (getF typeNode "xs:attribute")).foldl
      (fun ps attr => processItem config ps attr true false) ps1
    (ensureArray (getF typeNode "xs:attributeGroup")).foldl
      (fun ps attrGroupRef =>
        match getStr attrGroupRef "@_ref" with
        | some r =>
          match attrGroupMap (stripQualifier r) with
          | some groupDef =>
            (ensureArray (getF groupDef "xs:attribute")).foldl
              (fun ps attr => processItem config ps attr true false) ps
          | none => ps
        | none => ps) ps2

/-!
Generic fold-invariant machinery and the behaviour of `processItem`.
-/

/-- A `foldl` preserves any invariant its step function preserves. -/
theorem foldlPreserve {α β : Type} (P : α → Prop) (f : α → β → α)
    (h : ∀ s b, P s → P (f s b)) : ∀ (l : List β) (s : α), P s → P (l.foldl f s)
  | [], _, hs => hs
  | b :: l, s, hs => foldlPreserve P f h l (f s b) (h s b hs)

/-- `processItem` either leaves the property list unchanged (unnamed or
duplicate item) or appends exactly the descriptor `itemProperty`, whose
resolved name is new to the list. -/
theorem processItem_eq_or_append (config : Config) (ps : List Property) (item : Val)
    (iA fL : Bool) :
    processItem config ps item iA fL = ps ∨
    ∃ nm, getStr item "@_name" = some nm ∧ nm.isEmpty = false ∧
      (∀ q ∈ ps, q.name ≠ resolveName config iA nm) ∧
      processItem config ps item iA fL = ps ++ [itemProperty config item iA fL nm] := by
  rcases h : getStr item "@_name" with _ | nm
  · exact Or.inl (by simp [processItem, h])
  · by_cases he : nm.isEmpty
    · exact Or.inl (by simp [processItem, h, he])
    · by_cases hd : ps.any (fun p => p.name = resolveName config iA nm)
      · exact Or.inl (by simp only [processItem, h, he, hd]; simp)
      · refine Or.inr ⟨nm, rfl, by simpa using he, ?_, by simp only [processItem, h, he, hd]; simp⟩
        intro q hq hqe
        exact hd (List.any_eq_true.mpr ⟨q, hq, by simp [hqe]⟩)

/-- If the invariant `P` is preserved by every push `processItem` can make,
it is preserved by `processItem`. -/
theorem processItem_preserve (P : List Property → Prop)
    (config : Config) (item : Val) (iA fL : Bool)
    (hP : ∀ ps nm, P ps → (∀ q ∈ ps, q.name ≠ resolveName config iA nm) →
      P (ps ++ [itemProperty config item iA fL nm]))
    (ps : List Property) (hps : P ps) : P (processItem config ps item iA fL) := by
  rcases processItem_eq_or_append config ps item iA fL with h | ⟨nm, _, _, hnew, h⟩
  · rw [h]; exact hps
  · rw [h]; exact hP ps nm hps hnew

/-- `processContentModel` preserves every invariant preserved by the
element-position `processItem` calls it makes (all with
`isAttribute = false`). -/
theorem processContentModel_preserve (config : Config) (gm : String → Option Val)
    (P : List Property → Prop)
    (hPI : ∀ ps item fL, P ps → P (processItem config ps item false fL)) :
    ∀ (fuel : Nat) (node : Val) (ps : List Property), P ps →
      P (processContentModel config gm fuel node ps) := by
  intro fuel
  induction fuel with
  | zero => intro node ps hps; simpa [processContentModel] using hps
  | succ n ih =>
    intro node ps hps
    simp only [processContentModel]
    refine foldlPreserve P _ (fun s b hs => hPI s b false hs) _ _ ?_
    refine foldlPreserve P _ ?_ _ _ ?_
    · intro s b hs
      split
      · split
        · exact ih _ _ hs
        · exact hs
      · exact hs
    refine foldlPreserve P _ ?_ _ _ ?_
    · intro s b hs
      refine ih _ _ ?_
      simp only [flattenChoice]
      exact foldlPreserve P _ (fun s' b' hs' => hPI s' b' _ hs') _ _ hs
    exact foldlPreserve P _ (fun s b hs => ih b s hs) _ _ hps

/-- `extractProperties` establishes every invariant that holds of the two
possible start lists and is preserved by the `processItem` calls it
makes. -/
theorem extractProperties_invariant (config : Config) (P : List Property → Prop)
    (hPel : ∀ ps item fL, P ps → P (processItem config ps item false fL))
    (hPat : ∀ ps item, P ps → P (processItem config ps item true false))
    (hNil : P [])
    (hText : ∀ extension, P [textProperty config extension]) :
    ∀ fuel typeNode gm am, P (extractProperties fuel typeNode config gm am) := by
  intro fuel typeNode gm am
  simp only [extractProperties]
  split
  · split
    · exact foldlPreserve P _ (fun s b hs => hPat s b hs) _ _ (hText _)
    · exact hNil
  · refine foldlPreserve P _ ?_ _ _ ?_
    · intro s b hs
      split
      · split
        · exact foldlPreserve P _ (fun s' b' hs' => hPat s' b' hs') _ _ hs
        · exact hs
      · exact hs
    refine foldlPreserve P _ (fun s b hs => hPat s b hs) _ _ ?_
    split
    · split
      · exact foldlPreserve P _ (fun s b hs => hPat s b hs) _ _
          (processContentModel_preserve config gm P hPel fuel _ _ hNil)
      · exact hNil
    · exact processContentModel_preserve config gm P hPel fuel _ _ hNil

/-- An attribute-marked name is never the reserved text marker. -/
theorem marker_ne_text (nm : String) : ("@_" ++ nm) ≠ "#text" := by
  intro h
  have h' : ("@_" ++ nm).data = "#text".data := congrArg String.data h
  rw [String.data_append] at h'
  simp at h'

/-- Folding `processItem` in attribute position over any item list only
appends, and appends only attribute descriptors whose `xmlName` carries the
`@_` marker. -/
theorem attrFold_append (config : Config) (attrs : List Val) :
    ∀ ps, ∃ t,
      attrs.foldl (fun ps attr => processItem config ps attr true false) ps = ps ++ t ∧
      ∀ p ∈ t, p.isAttribute = true ∧ ∃ nm, p.xmlName = "@_" ++ nm := by
  induction attrs with
  | nil => exact fun ps => ⟨[], by simp⟩
  | cons a rest ih =>
    intro ps
    obtain ⟨t, ht, hall⟩ := ih (processItem config ps a true false)
    rw [List.foldl_cons]
    rcases processItem_eq_or_append config ps a true false with h | ⟨nm, _, _, _, h⟩
    · exact ⟨t, by rw [h] at ht ⊢; exact ht, hall⟩
    · refine ⟨itemProperty config a true false nm :: t, ?_, ?_⟩
      · rw [h] at ht; rw [h, ht]; simp
      · intro p hp
        rcases List.mem_cons.mp hp with hp' | hp'
        · subst hp'; exact ⟨rfl, nm, rfl⟩
        · exact hall p hp'

/-- After `processItem` on a named item, some property with the item's
resolved name is in the list (the freshly pushed one, or the earlier
duplicate that caused the skip). -/
theorem processItem_mem_name (config : Config) (ps : List Property) (item : Val)
    (iA fL : Bool) (nm : String)
    (hn : getStr item "@_name" = some nm) (hne : nm.isEmpty = false) :
    ∃ q ∈ processItem config ps item iA fL, q.name = resolveName config iA nm := by
  by_cases hd : ps.any (fun p => p.name = resolveName config iA nm)
  · obtain ⟨q, hq, hqe⟩ := List.any_eq_true.mp hd
    rcases processItem_eq_or_append config ps item iA fL with h | ⟨nm', _, _, _, h⟩ <;>
      rw [h] <;> exact ⟨q, by simp [hq], of_decide_eq_true hqe⟩
  · have h : processItem config ps item iA fL = ps ++ [itemProperty config item iA fL nm] := by
      simp only [processItem, hn, hne]
      simp [hd]
    rw [h]
    exact ⟨itemProperty config item iA fL nm, by simp, rfl⟩

/-- Folding `processItem` in element position (as the choice loop does)
only appends; appended descriptors are non-attribute, originate from a
member element, and are lists whenever the force-list flag is set; and
every member element with a truthy name ends up represented in the
resulting list under its resolved name. -/
theorem elemFold_append (config : Config) (fL : Bool) (els : List Val) :
    ∀ ps, ∃ t,
      els.foldl (fun ps el => processItem config ps el false fL) ps = ps ++ t ∧
      (∀ p ∈ t, p.isAttribute = false ∧
        (∃ el ∈ els, getStr el "@_name" = some p.xmlName) ∧
        (fL = true → p.isList = true)) ∧
      (∀ el ∈ els, ∀ nm, getStr el "@_name" = some nm → nm.isEmpty = false →
        ∃ p ∈ els.foldl (fun ps el => processItem config ps el false fL) ps,
          p.name = resolveName config false nm) := by
  induction els with
  | nil => exact fun ps => ⟨[], by simp, by simp, by simp⟩
  | cons a rest ih =>
    intro ps
    obtain ⟨t, ht, hall, hflat⟩ := ih (processItem config ps a false fL)
    have hmono : ∀ q ∈ processItem config ps a false fL,
        q ∈ (a :: rest).foldl (fun ps el => processItem config ps el false fL) ps := by
      intro q hq
      rw [List.foldl_cons, ht]
      exact List.mem_append_left _ hq
    have hflat' : ∀ el ∈ a :: rest, ∀ nm, getStr el "@_name" = some nm → nm.isEmpty = false →
        ∃ p ∈ (a :: rest).foldl (fun ps el => processItem config ps el false fL) ps,
          p.name = resolveName config false nm := by
      intro el hel nm hn hne
      rcases List.mem_cons.mp hel with hel' | hel'
      · subst hel'
        obtain ⟨q, hq, hqn⟩ := processItem_mem_name config ps el false fL nm hn hne
        exact ⟨q, hmono q hq, hqn⟩
      · obtain ⟨p, hp, hpn⟩ := hflat el hel' nm hn hne
        exact ⟨p, by rw [List.foldl_cons]; exact hp, hpn⟩
    rcases processItem_eq_or_append config ps a false fL with h | ⟨nm, hn, hne, hnd, h⟩
    · refine ⟨t, ?_, ?_, hflat'⟩
      · rw [List.foldl_cons]; rw [h] at ht ⊢; exact ht
      · intro p hp
        obtain ⟨h1, ⟨el, hel, hel2⟩, h3⟩ := hall p hp
        exact ⟨h1, ⟨el, List.mem_cons_of_mem a hel, hel2⟩, h3⟩
    · refine ⟨itemProperty config a false fL nm :: t, ?_, ?_, hflat'⟩
      · rw [List.foldl_cons]; rw [h] at ht ⊢; rw [ht]; simp
      · intro p hp
        rcases List.mem_cons.mp hp with hp' | hp'
        · subst hp'
          refine ⟨rfl, ⟨a, List.mem_cons_self a rest, ?_⟩, ?_⟩
          · simpa [itemProperty, originalNameOf] using hn
          · intro hfL; subst hfL; rfl
        · obtain ⟨h1, ⟨el, hel, hel2⟩, h3⟩ := hall p hp'
          exact ⟨h1, ⟨el, List.mem_cons_of_mem a hel, hel2⟩, h3⟩

/-!
Concrete fixtures used by counterexamples and witnesses.
-/

/-- Default configuration: no `text-attribute-name`, no
`transparent-attributes`. -/
def cfg0 : Config := ⟨none, false⟩

/-- Empty group / attribute-group map. -/
def gm0 : String → Option Val := fun _ => none

/-- A simple-content type defined through `xs:restriction` instead of
`xs:extension` (legal XSD; the source only handles the extension form). -/
def simpleContentRestrictionNode : Val :=
  .vObj [("xs:simpleContent", .vObj [("xs:restriction", .vObj [("@_base", .vStr "xs:string")])])]

/-- Extension body of the simple-content witness type: base
`xs:LocalizedText` plus one `Locale` attribute. -/
def ltExt : Val :=
  .vObj [("@_base", .vStr "xs:LocalizedText"), ("xs:attribute", .vObj [("@_name", .vStr "Locale")])]

/-- Simple-content body of the witness type. -/
def ltSC : Val := .vObj [("xs:extension", ltExt)]

/-- A simple-content type with text value and one attribute (the
`LocalizedText` shape from the source's comments). -/
def localizedTextNode : Val := .vObj [("xs:simpleContent", ltSC)]

/-- An unbounded `xs:sequence` containing a plain `xs:choice` with one
member element `a` (no `maxOccurs` anywhere below the sequence). -/
def unboundedSeqChoiceNode : Val :=
  .vObj [("xs:sequence", .vObj [("@_maxOccurs", .vStr "unbounded"),
    ("xs:choice", .vObj [("xs:element", .vObj [("@_name", .vStr "a")])])])]

/-- A choice with `maxOccurs="unbounded"` and two member elements. -/
def unboundedChoiceNode : Val :=
  .vObj [("@_maxOccurs", .vStr "unbounded"),
    ("xs:element", .vArr [.vObj [("@_name", .vStr "x")], .vObj [("@_name", .vStr "y")]])]

/-- A sequence with two same-named elements of different declared types. -/
def dupElemNode : Val :=
  .vObj [("xs:sequence", .vObj [("xs:element", .vArr
    [.vObj [("@_name", .vStr "X"), ("@_type", .vStr "xs:string")],
     .vObj [("@_name", .vStr "X"), ("@_type", .vStr "xs:int")]])])]

/-- The `Person` scenario: one element child and one attribute. -/
def personNode : Val :=
  .vObj [("xs:sequence", .vObj [("xs:element", .vObj [("@_name", .vStr "Name"), ("@_type", .vStr "xs:string")])]),
    ("xs:attribute", .vObj [("@_name", .vStr "Age"), ("@_type", .vStr "xs:int")])]

/-- The attribute property extracted from `personNode`. -/
def personAgeProperty : Property :=
  ⟨"@_Age", "@_Age", some "xs:int", false, some "xs:int", true, false, false⟩

/-- C1 (amended): for every type node whose simple-content model carries an
extension child, extractProperties emits exactly one text-value property
(name from configuration, default "value"; xmlName the reserved text marker
"#text"; declared type the extension's base type, defaulting to xs:string
when the base is absent or empty) followed only by attribute properties,
and returns without any content-model processing (the result is independent
of the fuel and of both group maps). -/
theorem extractProperties_simpleContent_extension (fuel : Nat) (typeNode : Val)
    (config : Config) (gm am : String → Option Val) (sc extension : Val)
    (hsc : getF typeNode "xs:simpleContent" = some sc) (hscT : truthy sc = true)
    (hext : getF sc "xs:extension" = some extension) (hextT : truthy extension = true) :
    ∃ rest,
      extractProperties fuel typeNode config gm am =
        { name := jsOrStr config.textAttributeName "value"
          xmlName := "#text"
          type := some (jsOrStr (getStr extension "@_base") "xs:string")
          isList := false
          xsdType := getStr extension "@_base"
          isAttribute := false
          nillable := false
          isAny := false } :: rest ∧
      ∀ p ∈ rest, p.isAttribute = true ∧ p.xmlName ≠ "#text" := by
  obtain ⟨t, ht, hall⟩ :=
    attrFold_append config (ensureArray (getF extension "xs:attribute"))
      [textProperty config extension]
  refine ⟨t, ?_, ?_⟩
  · simp only [extractProperties, hsc, hext, truthyO, hscT, hextT, Option.getD_some, if_true]
    rw [ht]
    rfl
  · intro p hp
    obtain ⟨h1, nm, h2⟩ := hall p hp
    exact ⟨h1, by rw [h2]; exact marker_ne_text nm⟩

/-- C1 counterexample: a type node whose body contains a simple-content
model (via restriction) for which extractProperties emits no text-value
property at all: the returned list is empty. -/
theorem extractProperties_simpleContent_restriction_cex :
    truthyO (getF simpleContentRestrictionNode "xs:simpleContent") = true ∧
    extractProperties 5 simpleContentRestrictionNode cfg0 gm0 gm0 = [] :=
  ⟨by decide, by decide⟩

/-- C1 witness: concrete simple-content type evaluated, and the theorem
applied to it with all hypotheses discharged. -/
theorem extractProperties_simpleContent_extension_witness :
    (extractProperties 0 localizedTextNode cfg0 gm0 gm0 =
      [⟨"value", "#text", some "xs:LocalizedText", false, some "xs:LocalizedText", false, false, false⟩,
       ⟨"@_Locale", "@_Locale", none, false, none, true, false, false⟩]) ∧
    (∃ rest,
      extractProperties 0 localizedTextNode cfg0 gm0 gm0 =
        { name := jsOrStr cfg0.textAttributeName "value"
          xmlName := "#text"
          type := some (jsOrStr (getStr ltExt "@_base") "xs:string")
          isList := false
          xsdType := getStr ltExt "@_base"
          isAttribute := false
          nillable := false
          isAny := false } :: rest ∧
      ∀ p ∈ rest, p.isAttribute = true ∧ p.xmlName ≠ "#text") :=
  ⟨by decide,
    extractProperties_simpleContent_extension 0 localizedTextNode cfg0 gm0 gm0 ltSC ltExt
      (by decide) (by decide) (by decide) (by decide)⟩

/-- C2 (amended): the choice loop of processContentModel flattens the
choice's member elements directly into the parent's property list (it only
appends; every appended property is a non-attribute originating in a member
element, and every member element with a truthy name is represented in the
result under its resolved name), and when the choice itself carries
`maxOccurs="unbounded"` every appended member property has isList = true.
The code does not consult the container's `maxOccurs` (see the
counterexample). -/
theorem flattenChoice_members (config : Config) (choice : Val) (ps : List Property) :
    ∃ t, flattenChoice config choice ps = ps ++ t ∧
      (∀ p ∈ t, p.isAttribute = false ∧
        (∃ el ∈ ensureArray (getF choice "xs:element"), getStr el "@_name" = some p.xmlName) ∧
        (getStr choice "@_maxOccurs" = some "unbounded" → p.isList = true)) ∧
      (∀ el ∈ ensureArray (getF choice "xs:element"), ∀ nm,
        getStr el "@_name" = some nm → nm.isEmpty = false →
        ∃ p ∈ flattenChoice config choice ps, p.name = resolveName config false nm) := by
  obtain ⟨t, ht, hall, hflat⟩ :=
    elemFold_append config (getStr choice "@_maxOccurs" == some "unbounded")
      (ensureArray (getF choice "xs:element")) ps
  refine ⟨t, by simpa [flattenChoice] using ht, ?_, ?_⟩
  · intro p hp
    obtain ⟨h1, h2, h3⟩ := hall p hp
    exact ⟨h1, h2, fun hmax => h3 (beq_iff_eq.mpr hmax)⟩
  · intro el hel nm hn hne
    obtain ⟨p, hp, hpn⟩ := hflat el hel nm hn hne
    exact ⟨p, by simpa [flattenChoice] using hp, hpn⟩

/-- C2 counterexample: the container (a sequence with
`maxOccurs="unbounded"`) of a plain choice does not make the flattened
member a list: the member property of `unboundedSeqChoiceNode` comes out
with isList = false. -/
theorem choice_container_unbounded_cex :
    getStr ((getF unboundedSeqChoiceNode "xs:sequence").getD (.vStr "")) "@_maxOccurs" =
      some "unbounded" ∧
    extractProperties 5 unboundedSeqChoiceNode cfg0 gm0 gm0 =
      [⟨"a", "a", none, false, none, false, false, false⟩] :=
  ⟨by decide, by decide⟩

/-- C2 witness: a concrete unbounded choice evaluated (both members come
out with isList = true), and the theorem applied to it. -/
theorem flattenChoice_members_witness :
    (flattenChoice cfg0 unboundedChoiceNode [] =
      [⟨"x", "x", none, true, none, false, false, false⟩,
       ⟨"y", "y", none, true, none, false, false, false⟩]) ∧
    (∃ t, flattenChoice cfg0 unboundedChoiceNode [] = [] ++ t ∧
      (∀ p ∈ t, p.isAttribute = false ∧
        (∃ el ∈ ensureArray (getF unboundedChoiceNode "xs:element"),
          getStr el "@_name" = some p.xmlName) ∧
        (getStr unboundedChoiceNode "@_maxOccurs" = some "unbounded" → p.isList = true)) ∧
      (∀ el ∈ ensureArray (getF unboundedChoiceNode "xs:element"), ∀ nm,
        getStr el "@_name" = some nm → nm.isEmpty = false →
        ∃ p ∈ flattenChoice cfg0 unboundedChoiceNode [],
          p.name = resolveName cfg0 false nm)) :=
  ⟨by decide, flattenChoice_members cfg0 unboundedChoiceNode []⟩

/-- C3: every property list returned by extractProperties has pairwise
distinct names, and processItem silently skips any item whose resolved name
is already present (first declaration wins). -/
theorem extractProperties_names_unique (fuel : Nat) (typeNode : Val) (config : Config)
    (gm am : String → Option Val) :
    (extractProperties fuel typeNode config gm am).Pairwise (fun p q => p.name ≠ q.name) ∧
    ∀ (ps : List Property) (item : Val) (iA fL : Bool) (nm : String),
      getStr item "@_name" = some nm →
      (∃ q ∈ ps, q.name = resolveName config iA nm) →
      processItem config ps item iA fL = ps := by
  constructor
  · have hstep : ∀ (iA fL : Bool) (item : Val) (ps : List Property),
        ps.Pairwise (fun p q => p.name ≠ q.name) →
        (processItem config ps item iA fL).Pairwise (fun p q => p.name ≠ q.name) := by
      intro iA fL item ps hps
      refine processItem_preserve _ config item iA fL ?_ ps hps
      intro ps' nm hps' hnew
      rw [List.pairwise_append]
      refine ⟨hps', List.pairwise_singleton _ _, ?_⟩
      intro a ha b hb
      simp only [List.mem_singleton] at hb
      subst hb
      exact hnew a ha
    exact extractProperties_invariant config _
      (fun ps item fL hps => hstep false fL item ps hps)
      (fun ps item hps => hstep true false item ps hps)
      List.Pairwise.nil
      (fun extension => List.pairwise_singleton _ _) fuel typeNode gm am
  · rintro ps item iA fL nm hn ⟨q, hq, hqe⟩
    have hd : ps.any (fun p => p.name = resolveName config iA nm) = true :=
      List.any_eq_true.mpr ⟨q, hq, decide_eq_true hqe⟩
    by_cases he : nm.isEmpty
    · simp [processItem, hn, he]
    · simp [processItem, hn, he, hd]

/-- C3 witness: the duplicate-element scenario evaluated (only the first
`X` survives, with its original declared type), and the theorem applied. -/
theorem extractProperties_names_unique_witness :
    (extractProperties 5 dupElemNode cfg0 gm0 gm0 =
      [⟨"X", "X", some "xs:string", false, some "xs:string", false, false, false⟩]) ∧
    (extractProperties 5 dupElemNode cfg0 gm0 gm0).Pairwise (fun p q => p.name ≠ q.name) :=
  ⟨by decide, (extractProperties_names_unique 5 dupElemNode cfg0 gm0 gm0).1⟩

/-- C4: in every property list returned by extractProperties, an attribute
property is never a list. -/
theorem extractProperties_attribute_never_list (fuel : Nat) (typeNode : Val)
    (config : Config) (gm am : String → Option Val) :
    ∀ p ∈ extractProperties fuel typeNode config gm am,
      p.isAttribute = true → p.isList = false := by
  refine extractProperties_invariant config
    (fun l => ∀ p ∈ l, p.isAttribute = true → p.isList = false) ?_ ?_ ?_ ?_ fuel typeNode gm am
  · intro ps item fL hps
    refine processItem_preserve
      (fun l => ∀ p ∈ l, p.isAttribute = true → p.isList = false)
      config item false fL ?_ ps hps
    intro ps' nm hps' _ p hp
    rcases List.mem_append.mp hp with h | h
    · exact hps' p h
    · simp only [List.mem_singleton] at h
      subst h
      intro hattr
      simp [itemProperty] at hattr
  · intro ps item hps
    refine processItem_preserve
      (fun l => ∀ p ∈ l, p.isAttribute = true → p.isList = false)
      config item true false ?_ ps hps
    intro ps' nm hps' _ p hp
    rcases List.mem_append.mp hp with h | h
    · exact hps' p h
    · simp only [List.mem_singleton] at h
      subst h
      intro _
      rfl
  · intro p hp
    cases hp
  · intro extension p hp
    simp only [List.mem_singleton] at hp
    subst hp
    intro h
    simp [textProperty] at h

/-!
Embedding of `topologicalSort` from `src/utils.js`. A class record carries
its name and dependency names (`dependencies` is a JS `Set`, iterated in
insertion order, modelled as a list). The JS `visit` closure recurses
without an explicit bound but terminates because `visited` grows on every
recursive descent; the model makes this explicit with a fuel argument. A
descent step is taken only for a known, unvisited name, so along any chain
of nested calls each level adds one known name to `visited`; with fuel
`classes.length` (an upper bound on the number of known names) the zero
case is unreachable on states whose unvisited-known count is at most the
fuel, which the top-level driver establishes. All theorems track this
adequacy invariant explicitly.
-/

/-- One entry of the input to `topologicalSort`: a generated class, with
the names of the classes it depends on. -/
structure Cls where
  className : String
  dependencies : List String
deriving DecidableEq, Repr

/-- `classMap.get`: the JS `Map` built from `classes.map(c => [c.className, c])`
keeps the last entry for a duplicated key. -/
def mapGet (classes : List Cls) (cn : String) : Option Cls :=
  classes.reverse.find? (fun c => c.className == cn)

/-- The mutable state of the JS `visit` closure: the `visited` name set and
the `sorted` output array. -/
structure St where
  visited : List String
  sorted : List Cls
deriving Repr

/-- The recursive `visit` closure of `topologicalSort` (fuel-indexed, see
the section comment). -/
def visitF (classes : List Cls) : Nat → St → String → St
  | 0, s, _ => s
  | fuel + 1, s, cn =>
    if s.visited.contains cn then s
    else
      match mapGet classes cn with
      | none => s
      | some c =>
        let s2 := c.dependencies.foldl (visitF classes fuel) ⟨cn :: s.visited, s.sorted⟩
        ⟨s2.visited, s2.sorted ++ [c]⟩

/-- `topologicalSort` from `src/utils.js`: visit every input class name in
order, starting from the empty state. -/
def topologicalSort (classes : List Cls) : List Cls :=
  (classes.foldl (fun s c => visitF classes classes.length s c.className) ⟨[], []⟩).sorted

/-- Names of the classes already pushed to the output. -/
def pushedNames (s : St) : List String := s.sorted.map Cls.className

/-- The dependency edge relation the sorter walks, restricted to known
targets: `a`'s class (as the map resolves it) lists `b`, and `b` is a known
class name. -/
def EdgeK (classes : List Cls) (a b : String) : Prop :=
  ∃ c, mapGet classes a = some c ∧ b ∈ c.dependencies ∧ (mapGet classes b).isSome = true

/-- Reachability along known dependency edges. -/
def PathK (classes : List Cls) : String → String → Prop :=
  Relation.ReflTransGen (EdgeK classes)

/-- Number of known class names not yet visited (the fuel-adequacy
measure). -/
def unvisitedCount (classes : List Cls) (s : St) : Nat :=
  ((classes.map Cls.className).toFinset \ s.visited.toFinset).card

/-- Well-formedness of a sorter state: pushed names are visited and
pairwise distinct. -/
def GoodSt (s : St) : Prop :=
  (∀ n ∈ pushedNames s, n ∈ s.visited) ∧ (pushedNames s).Nodup

/-- Relation between a state and the result of one complete `visit` call on
`cn`: `visited` grows, `sorted` grows by known classes reachable from `cn`
whose names are newly visited, newly visited names are known and reachable
from `cn`, the set of visited-but-unpushed names is unchanged, and
well-formedness is preserved. -/
def VisitRel (classes : List Cls) (cn : String) (s s' : St) : Prop :=
  (∀ x ∈ s.visited, x ∈ s'.visited) ∧
  (∃ t, s'.sorted = s.sorted ++ t ∧ ∀ c' ∈ t,
    mapGet classes c'.className = some c' ∧ c'.className ∉ s.visited ∧
    PathK classes cn c'.className) ∧
  (∀ x ∈ s'.visited, x ∈ s.visited ∨ ((mapGet classes x).isSome = true ∧ PathK classes cn x)) ∧
  (∀ x, (x ∈ s'.visited ∧ x ∉ pushedNames s') ↔ (x ∈ s.visited ∧ x ∉ pushedNames s)) ∧
  (GoodSt s → GoodSt s')

/-- The class the map returns for `cn` is named `cn`. -/
theorem mapGet_className {classes : List Cls} {cn : String} {c : Cls}
    (h : mapGet classes cn = some c) : c.className = cn := by
  have := List.find?_some h
  simpa using this

/-- The class the map returns is one of the input classes. -/
theorem mapGet_mem {classes : List Cls} {cn : String} {c : Cls}
    (h : mapGet classes cn = some c) : c ∈ classes := by
  have := List.mem_of_find?_eq_some h
  simpa using this

/-- Any input class makes its own name known. -/
theorem mapGet_isSome_of_mem {classes : List Cls} {c : Cls} (h : c ∈ classes) :
    (mapGet classes c.className).isSome = true := by
  rw [mapGet, List.find?_isSome]
  exact ⟨c, by simpa using h, by simp⟩

/-- A visit of an already-visited or unknown name is a no-op. -/
theorem visitF_noop {classes : List Cls} {s : St} {cn : String}
    (h : cn ∈ s.visited ∨ mapGet classes cn = none) :
    ∀ fuel, visitF classes fuel s cn = s := by
  intro fuel
  cases fuel with
  | zero => rfl
  | succ n =>
    rcases h with h | h
    · simp only [visitF]
      rw [if_pos (List.elem_eq_true_of_mem h)]
    · by_cases hv : cn ∈ s.visited
      · simp only [visitF]
        rw [if_pos (List.elem_eq_true_of_mem hv)]
      · simp only [visitF, h]
        rw [if_neg (by simpa using hv)]

/-- `VisitRel` is reflexive. -/
theorem VisitRel.rfl (classes : List Cls) (cn : String) (s : St) : VisitRel classes cn s s :=
  ⟨fun _ h => h, ⟨[], by simp, by simp⟩, fun x hx => Or.inl hx, fun _ => Iff.rfl, id⟩

/-- `VisitRel` composes (for a fixed root `cn`). -/
theorem VisitRel.trans {classes : List Cls} {cn : String} {s1 s2 s3 : St}
    (h12 : VisitRel classes cn s1 s2) (h23 : VisitRel classes cn s2 s3) :
    VisitRel classes cn s1 s3 := by
  obtain ⟨m12, ⟨t12, ht12, hall12⟩, n12, g12, gd12⟩ := h12
  obtain ⟨m23, ⟨t23, ht23, hall23⟩, n23, g23, gd23⟩ := h23
  refine ⟨fun x hx => m23 x (m12 x hx),
    ⟨t12 ++ t23, by rw [ht23, ht12, List.append_assoc], ?_⟩, ?_,
    fun x => (g23 x).trans (g12 x), fun h => gd23 (gd12 h)⟩
  · intro c' hc'
    rcases List.mem_append.mp hc' with h | h
    · exact hall12 c' h
    · obtain ⟨ha, hb, hc⟩ := hall23 c' h
      exact ⟨ha, fun hmem => hb (m12 _ hmem), hc⟩
  · intro x hx
    rcases n23 x hx with h | h
    · exact n12 x h
    · exact Or.inr h

/-- A visit relation rooted at a dependency `d` of `cn` is also one rooted
at `cn`. -/
theorem VisitRel.lift {classes : List Cls} {cn d : String} {s s' : St}
    (hedge : EdgeK classes cn d) (h : VisitRel classes d s s') :
    VisitRel classes cn s s' := by
  obtain ⟨m, ⟨t, ht, hall⟩, n, g, gd⟩ := h
  refine ⟨m, ⟨t, ht, ?_⟩, ?_, g, gd⟩
  · intro c' hc'
    obtain ⟨ha, hb, hc⟩ := hall c' hc'
    exact ⟨ha, hb, Relation.ReflTransGen.head hedge hc⟩
  · intro x hx
    rcases n x hx with h' | ⟨hk, hp⟩
    · exact Or.inl h'
    · exact Or.inr ⟨hk, Relation.ReflTransGen.head hedge hp⟩

/-- Unfolding of the descending branch of `visitF`. -/
theorem visitF_succ_eq {classes : List Cls} {s : St} {cn : String} {c : Cls} (n : Nat)
    (hv : cn ∉ s.visited) (hm : mapGet classes cn = some c) :
    visitF classes (n + 1) s cn =
      ⟨(c.dependencies.foldl (visitF classes n) ⟨cn :: s.visited, s.sorted⟩).visited,
       (c.dependencies.foldl (visitF classes n) ⟨cn :: s.visited, s.sorted⟩).sorted ++ [c]⟩ := by
  simp only [visitF, hm]
  rw [if_neg (by simpa using hv)]

/-- Main structural lemma: one `visit` call relates the state to its result
in the sense of `VisitRel`. -/
theorem visitF_rel (classes : List Cls) :
    ∀ (fuel : Nat) (cn : String) (s : St), VisitRel classes cn s (visitF classes fuel s cn) := by
  intro fuel
  induction fuel with
  | zero => intro cn s; exact VisitRel.rfl classes cn s
  | succ n ih =>
    intro cn s
    by_cases hv : cn ∈ s.visited
    · rw [visitF_noop (Or.inl hv)]
      exact VisitRel.rfl classes cn s
    · rcases hm : mapGet classes cn with _ | c
      · rw [visitF_noop (Or.inr hm)]
        exact VisitRel.rfl classes cn s
      · have cnn : c.className = cn := mapGet_className hm
        have hfold : ∀ (ds : List String), (∀ d ∈ ds, d ∈ c.dependencies) →
            ∀ (si : St), VisitRel classes cn si (ds.foldl (visitF classes n) si) := by
          intro ds
          induction ds with
          | nil => intro _ si; exact VisitRel.rfl classes cn si
          | cons d ds ihds =>
            intro hds si
            rw [List.foldl_cons]
            refine VisitRel.trans ?_ (ihds (fun x hx => hds x (List.mem_cons_of_mem d hx)) _)
            by_cases hvd : d ∈ si.visited
            · rw [visitF_noop (Or.inl hvd)]; exact VisitRel.rfl classes cn si
            · rcases hmd : mapGet classes d with _ | cd
              · rw [visitF_noop (Or.inr hmd)]; exact VisitRel.rfl classes cn si
              · exact VisitRel.lift
                  ⟨c, hm, hds d (List.mem_cons_self d ds), by rw [hmd]; rfl⟩ (ih d si)
        rw [visitF_succ_eq n hv hm]
        obtain ⟨m2, ⟨t2, ht2, hall2⟩, n2, g2, gd2⟩ :=
          hfold c.dependencies (fun _ h => h) ⟨cn :: s.visited, s.sorted⟩
        have hpush2 :
            pushedNames (c.dependencies.foldl (visitF classes n) ⟨cn :: s.visited, s.sorted⟩) =
              pushedNames s ++ t2.map Cls.className := by
          simp only [pushedNames, ht2]
          simp
        refine ⟨?_, ⟨t2 ++ [c], ?_, ?_⟩, ?_, ?_, ?_⟩
        · intro x hx
          exact m2 x (List.mem_cons_of_mem cn hx)
        · simp only [ht2]
          simp
        · intro c' hc'
          rcases List.mem_append.mp hc' with h | h
          · obtain ⟨ha, hb, hc⟩ := hall2 c' h
            exact ⟨ha, fun hmem => hb (List.mem_cons_of_mem cn hmem), hc⟩
          · simp only [List.mem_singleton] at h
            subst h
            rw [cnn]
            exact ⟨hm, hv, Relation.ReflTransGen.refl⟩
        · intro x hx
          rcases n2 x hx with h | h
          · rcases List.mem_cons.mp h with h' | h'
            · subst h'
              exact Or.inr ⟨by rw [hm]; rfl, Relation.ReflTransGen.refl⟩
            · exact Or.inl h'
          · exact Or.inr h
        · intro x
          constructor
          · rintro ⟨hx, hnp⟩
            simp only [pushedNames, List.map_append, List.map_cons, List.map_nil,
              List.mem_append, List.mem_singleton, cnn] at hnp
            push_neg at hnp
            obtain ⟨hnp2, hne⟩ := hnp
            have := (g2 x).mp ⟨hx, by simpa [pushedNames] using hnp2⟩
            obtain ⟨hx1, hnp1⟩ := this
            rcases List.mem_cons.mp hx1 with h' | h'
            · exact absurd h' hne
            · exact ⟨h', by simpa [pushedNames] using hnp1⟩
          · rintro ⟨hx, hnp⟩
            have hne : x ≠ cn := fun h => hv (h ▸ hx)
            have := (g2 x).mpr ⟨List.mem_cons_of_mem cn hx, by simpa [pushedNames] using hnp⟩
            obtain ⟨hx2, hnp2⟩ := this
            refine ⟨hx2, ?_⟩
            simp only [pushedNames, List.map_append, List.map_cons, List.map_nil,
              List.mem_append, List.mem_singleton, cnn]
            push_neg
            exact ⟨by simpa [pushedNames] using hnp2, hne⟩
        · intro hG
          have hG1 : GoodSt ⟨cn :: s.visited, s.sorted⟩ := by
            obtain ⟨h1, h2⟩ := hG
            exact ⟨fun nn hnn => List.mem_cons_of_mem cn (h1 nn hnn), h2⟩
          obtain ⟨hg1, hg2⟩ := gd2 hG1
          constructor
          · intro nn hnn
            simp only [pushedNames, List.map_append, List.map_cons, List.map_nil,
              List.mem_append, List.mem_singleton, cnn] at hnn
            rcases hnn with h' | h'
            · exact hg1 nn (by simpa [pushedNames] using h')
            · rw [h']
              exact m2 cn (List.mem_cons_self cn s.visited)
          · have hcnp : cn ∉ pushedNames
                (c.dependencies.foldl (visitF classes n) ⟨cn :: s.visited, s.sorted⟩) := by
              rw [hpush2]
              intro hmem
              rcases List.mem_append.mp hmem with h' | h'
              · exact hv (hG.1 cn h')
              · obtain ⟨c', hc', hcc⟩ := List.mem_map.mp h'
                obtain ⟨_, hb, _⟩ := hall2 c' hc'
                exact hb (hcc ▸ List.mem_cons_self cn s.visited)
            simp only [pushedNames, List.map_append, List.map_cons, List.map_nil, cnn]
            rw [List.nodup_append]
            refine ⟨by simpa [pushedNames] using hg2, List.nodup_singleton cn, ?_⟩
            intro a ha hb
            simp only [List.mem_singleton] at hb
            subst hb
            exact hcnp (by simpa [pushedNames] using ha)

/-- A known name is a member of the known-name set. -/
theorem known_mem_toFinset {classes : List Cls} {cn : String}
    (hk : (mapGet classes cn).isSome = true) :
    cn ∈ (classes.map Cls.className).toFinset := by
  obtain ⟨c, hm⟩ := Option.isSome_iff_exists.mp hk
  rw [List.mem_toFinset]
  exact List.mem_map.mpr ⟨c, mapGet_mem hm, mapGet_className hm⟩

/-- Growing the visited set cannot increase the unvisited-known count. -/
theorem unvisitedCount_mono {classes : List Cls} {s s' : St}
    (h : ∀ x ∈ s.visited, x ∈ s'.visited) :
    unvisitedCount classes s' ≤ unvisitedCount classes s := by
  apply Finset.card_le_card
  apply Finset.sdiff_subset_sdiff (le_refl _)
  intro x hx
  rw [List.mem_toFinset] at hx ⊢
  exact h x hx

/-- Visiting a known, unvisited name strictly decreases the
unvisited-known count. -/
theorem unvisitedCount_cons {classes : List Cls} {s : St} {cn : String}
    (hk : (mapGet classes cn).isSome = true) (hv : cn ∉ s.visited) (σ : List Cls) :
    unvisitedCount classes (⟨cn :: s.visited, σ⟩ : St) < unvisitedCount classes s := by
  have hkn : cn ∈ (classes.map Cls.className).toFinset \ s.visited.toFinset :=
    Finset.mem_sdiff.mpr ⟨known_mem_toFinset hk, by simpa using hv⟩
  unfold unvisitedCount
  have h1 : (cn :: s.visited).toFinset = insert cn s.visited.toFinset := by simp
  rw [h1, Finset.sdiff_insert, Finset.card_erase_of_mem hkn]
  exact Nat.sub_lt (Finset.card_pos.mpr ⟨cn, hkn⟩) one_pos

/-- The dependency fold of a `visit` call relates its input state to its
output state (as `VisitRel`, rooted at the visited name). -/
theorem foldVisit_rel (classes : List Cls) (n : Nat) {cn : String} {c : Cls}
    (hm : mapGet classes cn = some c) :
    ∀ (ds : List String), (∀ d ∈ ds, d ∈ c.dependencies) →
      ∀ (si : St), VisitRel classes cn si (ds.foldl (visitF classes n) si) := by
  intro ds
  induction ds with
  | nil => intro _ si; exact VisitRel.rfl classes cn si
  | cons d ds ihds =>
    intro hds si
    rw [List.foldl_cons]
    refine VisitRel.trans ?_ (ihds (fun x hx => hds x (List.mem_cons_of_mem d hx)) _)
    by_cases hvd : d ∈ si.visited
    · rw [visitF_noop (Or.inl hvd)]; exact VisitRel.rfl classes cn si
    · rcases hmd : mapGet classes d with _ | cd
      · rw [visitF_noop (Or.inr hmd)]; exact VisitRel.rfl classes cn si
      · exact VisitRel.lift
          ⟨c, hm, hds d (List.mem_cons_self d ds), by rw [hmd]; rfl⟩
          (visitF_rel classes n d si)

/-- The fold only grows the visited set. -/
theorem foldVisit_visited_mono (classes : List Cls) (n : Nat) :
    ∀ (ds : List String) (si : St) (x : String), x ∈ si.visited →
      x ∈ (ds.foldl (visitF classes n) si).visited := by
  intro ds
  induction ds with
  | nil => exact fun si x h => h
  | cons d ds ihds =>
    intro si x h
    rw [List.foldl_cons]
    exact ihds _ x ((visitF_rel classes n d si).1 x h)

/-- With adequate fuel, visiting a known name makes it visited. -/
theorem visitF_visits (classes : List Cls) :
    ∀ (fuel : Nat) (s : St) (cn : String), unvisitedCount classes s ≤ fuel →
      (mapGet classes cn).isSome = true → cn ∈ (visitF classes fuel s cn).visited := by
  intro fuel
  cases fuel with
  | zero =>
    intro s cn hf hk
    by_contra hv
    have hmem : cn ∈ (classes.map Cls.className).toFinset \ s.visited.toFinset :=
      Finset.mem_sdiff.mpr ⟨known_mem_toFinset hk, by simpa using hv⟩
    have hzero : unvisitedCount classes s = 0 := Nat.le_zero.mp hf
    rw [unvisitedCount, Finset.card_eq_zero] at hzero
    rw [hzero] at hmem
    exact absurd hmem (Finset.not_mem_empty cn)
  | succ n =>
    intro s cn hf hk
    by_cases hv : cn ∈ s.visited
    · rw [visitF_noop (Or.inl hv)]; exact hv
    · obtain ⟨c, hm⟩ := Option.isSome_iff_exists.mp hk
      rw [visitF_succ_eq n hv hm]
      exact foldVisit_visited_mono classes n c.dependencies _ cn
        (List.mem_cons_self cn s.visited)

/-- With adequate fuel, after the dependency fold every known dependency is
visited. -/
theorem foldVisit_deps_visited (classes : List Cls) (n : Nat) :
    ∀ (ds : List String) (si : St), unvisitedCount classes si ≤ n →
      ∀ d ∈ ds, (mapGet classes d).isSome = true →
        d ∈ (ds.foldl (visitF classes n) si).visited := by
  intro ds
  induction ds with
  | nil => intro si _ d hd; cases hd
  | cons d0 ds ihds =>
    intro si hade d hd hk
    rw [List.foldl_cons]
    rcases List.mem_cons.mp hd with h | h
    · subst h
      exact foldVisit_visited_mono classes n ds _ d (visitF_visits classes n si d hade hk)
    · exact ihds (visitF classes n si d0)
        (le_trans (unvisitedCount_mono (visitF_rel classes n d0 si).1) hade) d h hk

/-- Topological-order invariant with a gray escape hatch: every known
dependency of an emitted class is either emitted earlier, or still pending
(visited but not yet pushed). -/
def OrderedG (classes : List Cls) (s : St) : Prop :=
  ∀ (i : Nat) (e : Cls), s.sorted[i]? = some e →
    ∀ d ∈ e.dependencies, (mapGet classes d).isSome = true →
    d ∈ (s.sorted.take i).map Cls.className ∨ (d ∈ s.visited ∧ d ∉ pushedNames s)

/-- With acyclic known dependencies, one `visit` call preserves the
topological-order invariant, provided every pending (visited-but-unpushed)
name can reach the visited name along known edges. -/
theorem visitF_ordered (classes : List Cls)
    (hac : ∀ x, ¬ Relation.TransGen (EdgeK classes) x x) :
    ∀ (fuel : Nat) (s : St) (cn : String),
      unvisitedCount classes s ≤ fuel → GoodSt s → OrderedG classes s →
      (∀ g, g ∈ s.visited → g ∉ pushedNames s → PathK classes g cn) →
      OrderedG classes (visitF classes fuel s cn) := by
  intro fuel
  induction fuel with
  | zero => intro s cn _ _ hOrd _; simpa [visitF] using hOrd
  | succ n ih =>
    intro s cn hade hG hOrd hgray
    by_cases hv : cn ∈ s.visited
    · rw [visitF_noop (Or.inl hv)]; exact hOrd
    · rcases hm : mapGet classes cn with _ | c
      · rw [visitF_noop (Or.inr hm)]; exact hOrd
      · have cnn : c.className = cn := mapGet_className hm
        have hkcn : (mapGet classes cn).isSome = true := by rw [hm]; rfl
        have hade1 : unvisitedCount classes (⟨cn :: s.visited, s.sorted⟩ : St) ≤ n := by
          have := unvisitedCount_cons hkcn hv s.sorted
          omega
        have hG1 : GoodSt (⟨cn :: s.visited, s.sorted⟩ : St) :=
          ⟨fun nn hnn => List.mem_cons_of_mem cn (hG.1 nn hnn), hG.2⟩
        have hOrd1 : OrderedG classes (⟨cn :: s.visited, s.sorted⟩ : St) := by
          intro i e he d hd hk
          rcases hOrd i e he d hd hk with h | ⟨h1, h2⟩
          · exact Or.inl h
          · exact Or.inr ⟨List.mem_cons_of_mem cn h1, h2⟩
        have hgray1 : ∀ d ∈ c.dependencies, (mapGet classes d).isSome = true →
            ∀ g, g ∈ cn :: s.visited → g ∉ pushedNames s → PathK classes g d := by
          intro d hd hk g hg hgp
          have hedge : EdgeK classes cn d := ⟨c, hm, hd, hk⟩
          rcases List.mem_cons.mp hg with h | h
          · rw [h]
            exact Relation.ReflTransGen.single hedge
          · exact Relation.ReflTransGen.tail (hgray g h hgp) hedge
        have hfold : ∀ (ds : List String), (∀ x ∈ ds, x ∈ c.dependencies) →
            ∀ (si : St), unvisitedCount classes si ≤ n → GoodSt si → OrderedG classes si →
            (∀ x, (x ∈ si.visited ∧ x ∉ pushedNames si) ↔
              (x ∈ cn :: s.visited ∧ x ∉ pushedNames s)) →
            OrderedG classes (ds.foldl (visitF classes n) si) ∧
            (∀ x, (x ∈ (ds.foldl (visitF classes n) si).visited ∧
                x ∉ pushedNames (ds.foldl (visitF classes n) si)) ↔
              (x ∈ cn :: s.visited ∧ x ∉ pushedNames s)) := by
          intro ds
          induction ds with
          | nil => intro _ si _ _ hOrdi hgri; exact ⟨hOrdi, hgri⟩
          | cons d ds ihds =>
            intro hds si hadei hGi hOrdi hgri
            rw [List.foldl_cons]
            have hrel := visitF_rel classes n d si
            have hOrdi' : OrderedG classes (visitF classes n si d) := by
              by_cases hvd : d ∈ si.visited
              · rw [visitF_noop (Or.inl hvd)]; exact hOrdi
              · rcases hmd : mapGet classes d with _ | cd
                · rw [visitF_noop (Or.inr hmd)]; exact hOrdi
                · refine ih si d hadei hGi hOrdi ?_
                  intro g hg hgp
                  obtain ⟨hg', hgp'⟩ := (hgri g).mp ⟨hg, hgp⟩
                  exact hgray1 d (hds d (List.mem_cons_self d ds)) (by rw [hmd]; rfl)
                    g hg' hgp'
            exact ihds (fun x hx => hds x (List.mem_cons_of_mem d hx)) _
              (le_trans (unvisitedCount_mono hrel.1) hadei)
              (hrel.2.2.2.2 hGi) hOrdi'
              (fun x => ((hrel.2.2.2.1 x).trans (hgri x)))
        obtain ⟨hOrd2, hgray2⟩ :=
          hfold c.dependencies (fun _ h => h) ⟨cn :: s.visited, s.sorted⟩ hade1 hG1 hOrd1
            (fun x => Iff.rfl)
        obtain ⟨m2, ⟨t2, ht2, hall2⟩, n2, g2, gd2⟩ :=
          foldVisit_rel classes n hm c.dependencies (fun _ h => h)
            ⟨cn :: s.visited, s.sorted⟩
        have hrelFull := visitF_rel classes (n + 1) cn s
        rw [visitF_succ_eq n hv hm] at hrelFull
        have hdeps := foldVisit_deps_visited classes n c.dependencies
          ⟨cn :: s.visited, s.sorted⟩ hade1
        rw [visitF_succ_eq n hv hm]
        intro i e he d hd hk
        by_cases hi : i < (c.dependencies.foldl (visitF classes n)
            (⟨cn :: s.visited, s.sorted⟩ : St)).sorted.length
        · have he2 : (c.dependencies.foldl (visitF classes n)
              (⟨cn :: s.visited, s.sorted⟩ : St)).sorted[i]? = some e := by
            have he' := he
            rw [show ((⟨(c.dependencies.foldl (visitF classes n)
                (⟨cn :: s.visited, s.sorted⟩ : St)).visited,
              (c.dependencies.foldl (visitF classes n)
                (⟨cn :: s.visited, s.sorted⟩ : St)).sorted ++ [c]⟩ : St)).sorted =
              (c.dependencies.foldl (visitF classes n)
                (⟨cn :: s.visited, s.sorted⟩ : St)).sorted ++ [c] from rfl] at he'
            rwa [List.getElem?_append, if_pos hi] at he'
          by_cases hio : i < s.sorted.length
          · have heS : s.sorted[i]? = some e := by
              have he3 := he2
              rw [ht2] at he3
              rwa [List.getElem?_append, if_pos hio] at he3
            rcases hOrd i e heS d hd hk with h | ⟨h1, h2⟩
            · left
              show d ∈ (((c.dependencies.foldl (visitF classes n)
                (⟨cn :: s.visited, s.sorted⟩ : St)).sorted ++ [c]).take i).map Cls.className
              rw [ht2]
              show d ∈ (((s.sorted ++ t2) ++ [c]).take i).map Cls.className
              rw [List.append_assoc, List.take_append_of_le_length (le_of_lt hio)]
              exact h
            · exact Or.inr ((hrelFull.2.2.2.1 d).mpr ⟨h1, h2⟩)
          · have heT : e ∈ t2 := by
              have he3 := he2
              rw [ht2] at he3
              rw [List.getElem?_append, if_neg hio] at he3
              exact List.getElem?_mem he3
            obtain ⟨hmape, hnv, hpath⟩ := hall2 e heT
            rcases hOrd2 i e he2 d hd hk with h | ⟨h1, h2⟩
            · left
              show d ∈ (((c.dependencies.foldl (visitF classes n)
                (⟨cn :: s.visited, s.sorted⟩ : St)).sorted ++ [c]).take i).map Cls.className
              rw [List.take_append_of_le_length (le_of_lt hi)]
              exact h
            · obtain ⟨hg1, hg2'⟩ := (hgray2 d).mp ⟨h1, h2⟩
              rcases List.mem_cons.mp hg1 with hdcn | hds'
              · exfalso
                have hedge : EdgeK classes e.className cn :=
                  ⟨e, hmape, by rw [← hdcn]; exact hd, hkcn⟩
                exact hac cn
                  (Relation.TransGen.tail' (hdcn ▸ hpath : PathK classes cn e.className) hedge)
              · exact Or.inr ((hrelFull.2.2.2.1 d).mpr ⟨hds', hg2'⟩)
        · have hieq : i = (c.dependencies.foldl (visitF classes n)
              (⟨cn :: s.visited, s.sorted⟩ : St)).sorted.length := by
            by_contra hne
            have hge : ((c.dependencies.foldl (visitF classes n)
                (⟨cn :: s.visited, s.sorted⟩ : St)).sorted ++ [c]).length ≤ i := by
              rw [List.length_append]
              simp only [List.length_singleton]
              omega
            have := List.getElem?_eq_none hge
            rw [this] at he
            cases he
          have hec : e = c := by
            have he' := he
            rw [show ((⟨(c.dependencies.foldl (visitF classes n)
                (⟨cn :: s.visited, s.sorted⟩ : St)).visited,
              (c.dependencies.foldl (visitF classes n)
                (⟨cn :: s.visited, s.sorted⟩ : St)).sorted ++ [c]⟩ : St)).sorted =
              (c.dependencies.foldl (visitF classes n)
                (⟨cn :: s.visited, s.sorted⟩ : St)).sorted ++ [c] from rfl] at he'
            rw [hieq] at he'
            rw [List.getElem?_append, if_neg (lt_irrefl _)] at he'
            simp at he'
            exact he'.symm
          rw [hec] at hd
          have hdv : d ∈ (c.dependencies.foldl (visitF classes n)
              (⟨cn :: s.visited, s.sorted⟩ : St)).visited := hdeps d hd hk
          by_cases hdp : d ∈ pushedNames (c.dependencies.foldl (visitF classes n)
              (⟨cn :: s.visited, s.sorted⟩ : St))
          · left
            show d ∈ (((c.dependencies.foldl (visitF classes n)
              (⟨cn :: s.visited, s.sorted⟩ : St)).sorted ++ [c]).take i).map Cls.className
            rw [hieq, List.take_left]
            exact hdp
          · exfalso
            obtain ⟨hg1, hg2'⟩ := (hgray2 d).mp ⟨hdv, hdp⟩
            rcases List.mem_cons.mp hg1 with hdcn | hds'
            · exact hac cn
                (Relation.TransGen.single ⟨c, hm, by rw [← hdcn]; exact hd, hkcn⟩)
            · have hp : PathK classes d cn := hgray d hds' hg2'
              exact hac d (Relation.TransGen.tail' hp ⟨c, hm, hd, hk⟩)

/-- Invariant of the top-level fold of `topologicalSort` that needs no
acyclicity: fuel adequacy, well-formedness, no pending names between
top-level visits, and every emitted class is what the class map returns for
its name. -/
def BaseInv (classes : List Cls) (s : St) : Prop :=
  unvisitedCount classes s ≤ classes.length ∧ GoodSt s ∧
  (∀ x ∈ s.visited, x ∈ pushedNames s) ∧
  (∀ e ∈ s.sorted, mapGet classes e.className = some e)

/-- The initial state satisfies `BaseInv`. -/
theorem baseInv_init (classes : List Cls) : BaseInv classes ⟨[], []⟩ := by
  refine ⟨?_, ⟨?_, ?_⟩, ?_, ?_⟩
  · unfold unvisitedCount
    have h0 : (([] : List String)).toFinset = ∅ := rfl
    rw [show (⟨[], []⟩ : St).visited = ([] : List String) from rfl, h0, Finset.sdiff_empty]
    calc (classes.map Cls.className).toFinset.card
        ≤ (classes.map Cls.className).length := List.toFinset_card_le _
      _ = classes.length := List.length_map _ _
  · intro n h
    simp [pushedNames] at h
  · simp [pushedNames]
  · intro x hx
    simp at hx
  · intro e he
    simp at he

/-- One top-level visit preserves `BaseInv`. -/
theorem baseInv_step (classes : List Cls) (cn : String) {s : St}
    (h : BaseInv classes s) : BaseInv classes (visitF classes classes.length s cn) := by
  obtain ⟨h1, h2, h3, h4⟩ := h
  obtain ⟨m, ⟨t, ht, hall⟩, _, g, gd⟩ := visitF_rel classes classes.length cn s
  refine ⟨le_trans (unvisitedCount_mono m) h1, gd h2, ?_, ?_⟩
  · intro x hx
    by_contra hnp
    obtain ⟨hx', hnp'⟩ := (g x).mp ⟨hx, hnp⟩
    exact hnp' (h3 x hx')
  · intro e he
    rw [ht] at he
    rcases List.mem_append.mp he with h' | h'
    · exact h4 e h'
    · exact (hall e h').1

/-- The top-level fold only grows the visited set. -/
theorem topFold_visited_mono (classes : List Cls) :
    ∀ (l : List Cls) (s : St) (x : String), x ∈ s.visited →
      x ∈ (l.foldl (fun s c => visitF classes classes.length s c.className) s).visited := by
  intro l
  induction l with
  | nil => exact fun s x h => h
  | cons a l ihl =>
    intro s x h
    rw [List.foldl_cons]
    exact ihl _ x ((visitF_rel classes classes.length a.className s).1 x h)

/-- The top-level fold visits the name of every class of its list. -/
theorem topFold_visits (classes : List Cls) :
    ∀ (l : List Cls) (s : St), unvisitedCount classes s ≤ classes.length →
      (∀ cl ∈ l, (mapGet classes cl.className).isSome = true) →
      ∀ cl ∈ l, cl.className ∈
        (l.foldl (fun s c => visitF classes classes.length s c.className) s).visited := by
  intro l
  induction l with
  | nil => intro s _ _ cl hcl; cases hcl
  | cons a l ihl =>
    intro s hade hk cl hcl
    rw [List.foldl_cons]
    rcases List.mem_cons.mp hcl with h | h
    · rw [h]
      exact topFold_visited_mono classes l _ a.className
        (visitF_visits classes classes.length s a.className hade (hk a (List.mem_cons_self a l)))
    · exact ihl (visitF classes classes.length s a.className)
        (le_trans (unvisitedCount_mono (visitF_rel classes classes.length a.className s).1) hade)
        (fun x hx => hk x (List.mem_cons_of_mem a hx)) cl h

/-- The final state of `topologicalSort` satisfies `BaseInv`. -/
theorem topologicalSort_baseInv (classes : List Cls) :
    BaseInv classes
      (classes.foldl (fun s c => visitF classes classes.length s c.className) ⟨[], []⟩) :=
  foldlPreserve (BaseInv classes) _ (fun _ b hs => baseInv_step classes b.className hs)
    classes ⟨[], []⟩ (baseInv_init classes)

/-- With acyclic known dependencies, the final state of `topologicalSort`
also satisfies the order invariant. -/
theorem topologicalSort_orderInv (classes : List Cls)
    (hac : ∀ x, ¬ Relation.TransGen (EdgeK classes) x x) :
    OrderedG classes
      (classes.foldl (fun s c => visitF classes classes.length s c.className) ⟨[], []⟩) := by
  have hstep : ∀ (s : St) (b : Cls), BaseInv classes s ∧ OrderedG classes s →
      BaseInv classes (visitF classes classes.length s b.className) ∧
        OrderedG classes (visitF classes classes.length s b.className) := by
    intro s b hs
    obtain ⟨hBase, hOrd⟩ := hs
    refine ⟨baseInv_step classes b.className hBase, ?_⟩
    exact visitF_ordered classes hac classes.length s b.className hBase.1 hBase.2.1 hOrd
      (fun g hg hgp => absurd (hBase.2.2.1 g hg) hgp)
  have hinit : BaseInv classes ⟨[], []⟩ ∧ OrderedG classes (⟨[], []⟩ : St) := by
    refine ⟨baseInv_init classes, ?_⟩
    intro i e he
    simp at he
  exact (foldlPreserve (fun s => BaseInv classes s ∧ OrderedG classes s) _ hstep
    classes ⟨[], []⟩ hinit).2

/-- First-occurrence position of a member of a take prefix. -/
theorem indexOf_lt_of_mem_take {b : String} :
    ∀ {l : List String} {i : Nat}, b ∈ l.take i → l.indexOf b < i := by
  intro l
  induction l with
  | nil => intro i h; rw [List.take_nil] at h; cases h
  | cons x xs ihl =>
    intro i h
    cases i with
    | zero => cases h
    | succ n =>
      rw [List.take_succ_cons] at h
      by_cases he : x = b
      · rw [he, List.indexOf_cons_self]
        omega
      · rcases List.mem_cons.mp h with h' | h'
        · exact absurd h'.symm he
        · rw [List.indexOf_cons_ne _ (by simpa using he)]
          have := ihl h'
          omega

/-- With pairwise-distinct class names, members with equal names are
equal. -/
theorem eq_of_mapNames_nodup :
    ∀ {l : List Cls}, (l.map Cls.className).Nodup →
      ∀ a ∈ l, ∀ b ∈ l, a.className = b.className → a = b := by
  intro l
  induction l with
  | nil => intro _ a ha; cases ha
  | cons x xs ihl =>
    intro hnd a ha b hb he
    rw [List.map_cons, List.nodup_cons] at hnd
    obtain ⟨hx, hxs⟩ := hnd
    rcases List.mem_cons.mp ha with ha' | ha' <;> rcases List.mem_cons.mp hb with hb' | hb'
    · rw [ha', hb']
    · exfalso
      apply hx
      rw [ha'] at he
      rw [he]
      exact List.mem_map.mpr ⟨b, hb', rfl⟩
    · exfalso
      apply hx
      rw [hb'] at he
      rw [← he]
      exact List.mem_map.mpr ⟨a, ha', rfl⟩
    · exact ihl hxs a ha' b hb' he

/-- With pairwise-distinct class names, the class map sends each member's
name to that member. -/
theorem mapGet_self {classes : List Cls} (hnd : (classes.map Cls.className).Nodup)
    {cl : Cls} (h : cl ∈ classes) : mapGet classes cl.className = some cl := by
  obtain ⟨c, hm⟩ := Option.isSome_iff_exists.mp (mapGet_isSome_of_mem h)
  rw [hm]
  have : c = cl :=
    eq_of_mapNames_nodup hnd c (mapGet_mem hm) cl h (mapGet_className hm)
  rw [this]

/-- C5: for acyclic known dependencies, topologicalSort places every known
dependency strictly before its dependent in the output (positions measured
by first occurrence of the class name), and the output is a deterministic
function of the input. -/
theorem topologicalSort_topo_order (classes : List Cls)
    (hac : ∀ x, ¬ Relation.TransGen (EdgeK classes) x x)
    (A B : String) (cA : Cls)
    (hA : mapGet classes A = some cA)
    (hB : (mapGet classes B).isSome = true)
    (hdep : B ∈ cA.dependencies) :
    ((topologicalSort classes).map Cls.className).indexOf B <
      ((topologicalSort classes).map Cls.className).indexOf A ∧
    ∀ classes2, classes2 = classes → topologicalSort classes2 = topologicalSort classes := by
  refine ⟨?_, fun classes2 h => by rw [h]⟩
  obtain ⟨hade0, hGood, hgrayn, hents⟩ := topologicalSort_baseInv classes
  have hOrd := topologicalSort_orderInv classes hac
  have hout : topologicalSort classes =
      (classes.foldl (fun s c => visitF classes classes.length s c.className)
        ⟨[], []⟩).sorted := rfl
  have hinitade : unvisitedCount classes (⟨[], []⟩ : St) ≤ classes.length :=
    (baseInv_init classes).1
  have hmemName : ∀ (X : String), (mapGet classes X).isSome = true →
      X ∈ ((topologicalSort classes).map Cls.className) := by
    intro X hk
    obtain ⟨cX, hmX⟩ := Option.isSome_iff_exists.mp hk
    have hXv : cX.className ∈ (classes.foldl
        (fun s c => visitF classes classes.length s c.className) ⟨[], []⟩).visited :=
      topFold_visits classes classes ⟨[], []⟩ hinitade
        (fun cl hcl => mapGet_isSome_of_mem hcl) cX (mapGet_mem hmX)
    have := hgrayn cX.className hXv
    rw [hout]
    rw [mapGet_className hmX] at this
    exact this
  have hAmem : A ∈ ((topologicalSort classes).map Cls.className) :=
    hmemName A (by rw [hA]; rfl)
  have hBmem : B ∈ ((topologicalSort classes).map Cls.className) :=
    hmemName B hB
  have hiA : ((topologicalSort classes).map Cls.className).indexOf A <
      ((topologicalSort classes).map Cls.className).length :=
    List.indexOf_lt_length.mpr hAmem
  have hiA' : ((topologicalSort classes).map Cls.className).indexOf A <
      (topologicalSort classes).length := by
    rw [← List.length_map (topologicalSort classes) Cls.className]
    exact hiA
  have heA : ((topologicalSort classes).map Cls.className).get ⟨_, hiA⟩ = A :=
    List.getElem_indexOf hiA
  set e := (topologicalSort classes).get
    ⟨((topologicalSort classes).map Cls.className).indexOf A, hiA'⟩ with hedef
  have hecn : e.className = A := by
    rw [hedef, List.get_eq_getElem]
    rw [List.get_eq_getElem, List.getElem_map] at heA
    exact heA
  have he? : (topologicalSort classes)[((topologicalSort classes).map
      Cls.className).indexOf A]? = some e := by
    rw [List.getElem?_eq_getElem hiA']
    simp [hedef]
  have heq : e = cA := by
    have hmem : e ∈ topologicalSort classes := by
      rw [hedef]
      exact List.get_mem _ _ _
    rw [hout] at hmem
    have h1 : mapGet classes e.className = some e := hents e hmem
    rw [hecn, hA] at h1
    exact (Option.some_inj.mp h1).symm
  have := hOrd (((topologicalSort classes).map Cls.className).indexOf A) e
    (by rw [hout] at he? ⊢; exact he?) B (by rw [heq]; exact hdep) hB
  rcases this with h | ⟨h1, h2⟩
  · apply indexOf_lt_of_mem_take
    rw [← List.map_take] at *
    rw [hout]
    rw [hout] at h
    exact h
  · exact absurd (hgrayn B h1) h2

/-- C10: with pairwise-distinct class names, topologicalSort returns a
permutation of its input, whatever the dependency relation (cycles and
unknown names included). -/
theorem topologicalSort_permutation (classes : List Cls)
    (hnd : (classes.map Cls.className).Nodup) :
    (topologicalSort classes).Perm classes := by
  obtain ⟨hade0, hGood, hgrayn, hents⟩ := topologicalSort_baseInv classes
  have hout : topologicalSort classes =
      (classes.foldl (fun s c => visitF classes classes.length s c.className)
        ⟨[], []⟩).sorted := rfl
  have houtnd : ((topologicalSort classes).map Cls.className).Nodup := by
    rw [hout]
    exact hGood.2
  have hnd1 : (topologicalSort classes).Nodup := houtnd.of_map
  have hnd2 : classes.Nodup := hnd.of_map
  refine (List.perm_ext_iff_of_nodup hnd1 hnd2).mpr ?_
  intro cl
  constructor
  · intro hcl
    have h1 : mapGet classes cl.className = some cl := by
      rw [hout] at hcl
      exact hents cl hcl
    exact mapGet_mem h1
  · intro hcl
    have hXv : cl.className ∈ (classes.foldl
        (fun s c => visitF classes classes.length s c.className) ⟨[], []⟩).visited :=
      topFold_visits classes classes ⟨[], []⟩ (baseInv_init classes).1
        (fun c hc => mapGet_isSome_of_mem hc) cl hcl
    have hpush := hgrayn cl.className hXv
    obtain ⟨e, he, hecn⟩ := List.mem_map.mp hpush
    have h1 : mapGet classes e.className = some e := hents e he
    have h2 : mapGet classes cl.className = some cl := mapGet_self hnd hcl
    rw [hecn] at h1
    rw [h1] at h2
    rw [hout]
    rw [← Option.some_inj.mp h2]
    exact he

/-- C4 witness: the `Person` attribute property is in the extracted list,
is an attribute, and is not a list. -/
theorem extractProperties_attribute_never_list_witness :
    personAgeProperty ∈ extractProperties 5 personNode cfg0 gm0 gm0 ∧
    personAgeProperty.isList = false :=
  ⟨by decide, extractProperties_attribute_never_list 5 personNode cfg0 gm0 gm0
    personAgeProperty (by decide) (by decide)⟩

/-- Acyclic two-class input: `A` depends on `B`. -/
def classesAB : List Cls := [⟨"A", ["B"]⟩, ⟨"B", []⟩]

/-- Cyclic input with an unknown dependency name: `A` and `B` depend on
each other, `Z` matches no class. -/
def classesCyc : List Cls := [⟨"A", ["B", "Z"]⟩, ⟨"B", ["A"]⟩]

/-- The known dependency relation of `classesAB` is acyclic. -/
theorem classesAB_acyclic : ∀ x, ¬ Relation.TransGen (EdgeK classesAB) x x := by
  have hrank : ∀ a b, EdgeK classesAB a b →
      (if b = "A" then 1 else 0) < (if a = "A" then 1 else 0) := by
    rintro a b ⟨c, hm, hdep, _⟩
    by_cases hA : a = "A"
    · subst hA
      have hc : c = ⟨"A", ["B"]⟩ := by
        have : mapGet classesAB "A" = some ⟨"A", ["B"]⟩ := by decide
        rw [this] at hm
        exact (Option.some_inj.mp hm).symm
      subst hc
      simp only [List.mem_singleton] at hdep
      subst hdep
      simp
    · by_cases hB : a = "B"
      · subst hB
        have hc : c = ⟨"B", []⟩ := by
          have : mapGet classesAB "B" = some ⟨"B", []⟩ := by decide
          rw [this] at hm
          exact (Option.some_inj.mp hm).symm
        subst hc
        cases hdep
      · exfalso
        have hnone : mapGet classesAB a = none := by
          unfold mapGet
          rw [show classesAB.reverse = [⟨"B", []⟩, ⟨"A", ["B"]⟩] from rfl]
          rw [List.find?_cons_of_neg _ (by simp; exact fun h => hB h.symm)]
          rw [List.find?_cons_of_neg _ (by simp; exact fun h => hA h.symm)]
          rfl
        rw [hnone] at hm
        cases hm
  intro x hx
  have hmono : ∀ a b, Relation.TransGen (EdgeK classesAB) a b →
      (if b = "A" then 1 else 0) < (if a = "A" then 1 else 0) := by
    intro a b h
    induction h with
    | single h => exact hrank _ _ h
    | tail _ h2 ih => exact lt_trans (hrank _ _ h2) ih
  exact lt_irrefl _ (hmono x x hx)

/-- C5 witness: the acyclic example evaluated (B is emitted before A), and
the theorem applied to its only dependency edge. -/
theorem topologicalSort_topo_order_witness :
    (topologicalSort classesAB = [⟨"B", []⟩, ⟨"A", ["B"]⟩]) ∧
    (((topologicalSort classesAB).map Cls.className).indexOf "B" <
      ((topologicalSort classesAB).map Cls.className).indexOf "A" ∧
     ∀ classes2, classes2 = classesAB → topologicalSort classes2 = topologicalSort classesAB) :=
  ⟨by decide, topologicalSort_topo_order classesAB classesAB_acyclic "A" "B" ⟨"A", ["B"]⟩
    (by decide) (by decide) (by decide)⟩

/-- C10 witness: the cyclic example evaluated (every input class appears
exactly once despite the cycle and the unknown name), and the theorem
applied to it. -/
theorem topologicalSort_permutation_witness :
    (topologicalSort classesCyc = [⟨"B", ["A"]⟩, ⟨"A", ["B", "Z"]⟩]) ∧
    (topologicalSort classesCyc).Perm classesCyc :=
  ⟨by decide, topologicalSort_permutation classesCyc (by decide)⟩

/-!
Embedding of `parseXsd` / `processNodeForInlineTypes` from `src/parser.js`.
The source mutates nodes of the input tree in place (rewriting inline
simple types into references) and, when the schema's `xs:complexType` field
is an array, pushes promoted element types onto that very array
(`ensureArray` returns the array itself). The model is a pure state
transformer: it returns the post-call input tree (`schemaAfter`) alongside
the extracted type lists.
-/

/-- Fields contributed by an object spread `{...v}`: non-objects contribute
no schema-relevant keys (a string spreads to index keys only). -/
def fieldsOf : Val → List (String × Val)
  | .vObj fs => fs
  | _ => []

/-- JS `v[k] = x` on a value: objects get the binding set, other values are
unchanged (in the source all mutated nodes are objects, since the mutation
is guarded by probing one of their keys). -/
def setF (v : Val) (k : String) (x : Val) : Val :=
  match v with
  | .vObj fs => .vObj (objSet fs k x)
  | other => other

/-- JS `delete v[k]` on a value. -/
def delF (v : Val) (k : String) : Val :=
  match v with
  | .vObj fs => .vObj (objDel fs k)
  | other => other

/-- JS template-literal coercion of `v[k]`: a missing value prints as
`"undefined"`. -/
def nameOrUndefined (v : Val) (k : String) : String :=
  match getStr v k with
  | some s => s
  | none => "undefined"

/-- `process(item, propName)` from `processNodeForInlineTypes`: when the
item carries a truthy inline `xs:simpleType`, emit it under the synthetic
name `{parent}_{propName}_Type` and rewrite the item to reference that
name. -/
def processInline (parentTypeName propName : String) (item : Val) : Val × List Val :=
  match getF item "xs:simpleType" with
  | some st =>
    if truthy st then
      let newTypeName := parentTypeName ++ "_" ++ propName ++ "_Type"
      (delF (setF item "@_type" (.vStr newTypeName)) "xs:simpleType",
        [.vObj (objSet (fieldsOf st) "@_name" (.vStr newTypeName))])
    else (item, [])
  | none => (item, [])

/-- Run `f` over the single-or-array occupant of field `k` of `node`
(matching the `ensureArray(...).forEach` mutation pattern), preserving the
single/array shape and collecting the emitted types in order. -/
def mapField (node : Val) (k : String) (f : Val → Val × List Val) : Val × List Val :=
  match getF node k with
  | none => (node, [])
  | some (.vArr l) =>
    let results := l.map f
    (setF node k (.vArr (results.map Prod.fst)), (results.map Prod.snd).flatten)
  | some x =>
    if truthy x then
      let r := f x
      (setF node k r.1, r.2)
    else (node, [])

/-- `processNodeForInlineTypes` from `src/parser.js`: scan the elements of
the node's direct `xs:sequence` and the node's direct attributes for inline
simple types. Nothing else (no choices, no nested sequences) is
scanned. -/
def processNodeForInlineTypes (node : Val) (parentTypeName : String) : Val × List Val :=
  if truthy node = false then (node, [])
  else
    let step1 :=
      match getF node "xs:sequence" with
      | some sq =>
        if truthy sq then
          let r := mapField sq "xs:element"
            (fun el => processInline parentTypeName (nameOrUndefined el "@_name") el)
          (setF node "xs:sequence" r.1, r.2)
        else (node, [])
      | none => (node, [])
    let r2 := mapField step1.1 "xs:attribute"
      (fun attr => processInline parentTypeName ("@_" ++ nameOrUndefined attr "@_name") attr)
    (r2.1, step1.2 ++ r2.2)

/-- The per-complex-type loop body of `parseXsd`: scan the type itself,
then the extension body of its complex content when that is truthy. -/
def processComplexType (ct : Val) : Val × List Val :=
  let parentName := nameOrUndefined ct "@_name"
  let r1 := processNodeForInlineTypes ct parentName
  match getF r1.1 "xs:complexContent" with
  | some cc =>
    if truthy cc then
      match getF cc "xs:extension" with
      | some ext =>
        if truthy ext then
          let r2 := processNodeForInlineTypes ext parentName
          (setF r1.1 "xs:complexContent" (setF cc "xs:extension" r2.1), r1.2 ++ r2.2)
        else (r1.1, r1.2)
      | none => (r1.1, r1.2)
    else (r1.1, r1.2)
  | none => (r1.1, r1.2)

/-- The promoted type for a top-level element with an inline complex type:
`{...el["xs:complexType"], "@_name": el["@_name"]}` (an absent element name
shadows any spread name with `undefined`, i.e. removes it for lookups). -/
def spreadWithName (ctv : Val) (nameVal : Option Val) : Val :=
  match nameVal with
  | some nv => .vObj (objSet (fieldsOf ctv) "@_name" nv)
  | none => .vObj (objDel (fieldsOf ctv) "@_name")

/-- Everything `parseXsd` produces: the complex- and simple-type lists plus
the input tree as it stands after the call (the source mutates it). -/
structure ParseResult where
  complexTypes : List Val
  simpleTypes : List Val
  schemaAfter : Val
deriving DecidableEq, Repr

/-- `parseXsd` from `src/parser.js`. Throws when the schema root is falsy;
otherwise collects complex types (mutating inline simple types into
references), promotes top-level elements with inline complex types, and
returns simple types plus the synthesized inline ones. `schemaAfter`
reflects the in-place mutations: rewritten complex types, and — when the
`xs:complexType` field holds an array, which `ensureArray` returns by
reference and `complexTypes.push` extends — the promoted types appended to
that array. -/
def parseXsd (schemaObj : Val) : Except String ParseResult :=
  match getF schemaObj "xs:schema" with
  | none => .error "Invalid XSD schema: <xs:schema> tag not found."
  | some schema =>
    if truthy schema = false then .error "Invalid XSD schema: <xs:schema> tag not found."
    else
      let ctField := getF schema "xs:complexType"
      let processed := (ensureArray ctField).map processComplexType
      let cts1 := processed.map Prod.fst
      let inlineSimpleTypes := (processed.map Prod.snd).flatten
      let promoted := (ensureArray (getF schema "xs:element")).filterMap (fun el =>
        match getF el "xs:complexType" with
        | some ctv =>
          if truthy ctv then some (spreadWithName ctv (getF el "@_name")) else none
        | none => none)
      let schemaAfter :=
        match ctField with
        | some (.vArr _) =>
          setF schemaObj "xs:schema" (setF schema "xs:complexType" (.vArr (cts1 ++ promoted)))
        | some x =>
          if truthy x then
            setF schemaObj "xs:schema" (setF schema "xs:complexType" (cts1.headD x))
          else schemaObj
        | none => schemaObj
      .ok ⟨cts1 ++ promoted,
        ensureArray (getF schema "xs:simpleType") ++ inlineSimpleTypes,
        schemaAfter⟩

/-- Setting a key makes it readable. -/
theorem lookup_objSet_self (fs : List (String × Val)) (k : String) (v : Val) :
    (objSet fs k v).lookup k = some v := by
  induction fs with
  | nil => simp [objSet]
  | cons p rest ih =>
    obtain ⟨k', v'⟩ := p
    by_cases h : k' = k
    · simp [objSet, h]
    · have hb : (k == k') = false := by simpa using fun he => h he.symm
      simp only [objSet, if_neg h, List.lookup_cons, hb]
      exact ih

/-- Re-assigning the value a key already holds is the identity. -/
theorem objSet_lookup_self {fs : List (String × Val)} {k : String} {v : Val}
    (h : fs.lookup k = some v) : objSet fs k v = fs := by
  induction fs with
  | nil => simp at h
  | cons p rest ih =>
    obtain ⟨k', v'⟩ := p
    rw [List.lookup_cons] at h
    by_cases hk : k = k'
    · have hb : (k == k') = true := beq_iff_eq.mpr hk
      simp only [hb] at h
      simp only [objSet, if_pos hk.symm]
      rw [hk, Option.some_inj.mp h]
    · have hb : (k == k') = false := by simpa using hk
      simp only [hb] at h
      have hne : ¬ k' = k := fun he => hk (Eq.symm he)
      simp only [objSet, if_neg hne]
      rw [ih h]

/-- Deleting a key removes it from lookups. -/
theorem lookup_objDel_self (fs : List (String × Val)) (k : String) :
    (objDel fs k).lookup k = none := by
  induction fs with
  | nil => simp [objDel]
  | cons p rest ih =>
    obtain ⟨k', v'⟩ := p
    by_cases h : k' = k
    · simpa [objDel, List.filter_cons, h] using ih
    · have hb : (k == k') = false := by simpa using fun he => h he.symm
      simp only [objDel, List.filter_cons] at ih ⊢
      rw [if_pos (by simpa using h)]
      simp only [List.lookup_cons, hb]
      exact ih

/-- Deleting one key leaves the others readable. -/
theorem lookup_objDel_ne (fs : List (String × Val)) {k k' : String} (h : k ≠ k') :
    (objDel fs k').lookup k = fs.lookup k := by
  induction fs with
  | nil => simp [objDel]
  | cons p rest ih =>
    obtain ⟨k0, v0⟩ := p
    simp only [objDel, List.filter_cons] at ih ⊢
    by_cases h0 : k0 = k'
    · rw [if_neg (by simpa using h0)]
      have hb : (k == k0) = false := by
        simpa using fun he => h (by rw [← he] at h0; exact h0)
      rw [List.lookup_cons]
      simp only [hb]
      exact ih
    · rw [if_pos (by simpa using h0)]
      rw [List.lookup_cons, List.lookup_cons]
      by_cases hk : k = k0
      · simp [beq_iff_eq.mpr hk]
      · have hb : (k == k0) = false := by simpa using hk
        simp only [hb]
        exact ih

/-- Writing back the value a field already holds is the identity. -/
theorem setF_self {v : Val} {k : String} {x : Val} (h : getF v k = some x) :
    setF v k x = v := by
  cases v with
  | vObj fs =>
    simp only [setF]
    rw [objSet_lookup_self (by simpa [getF] using h)]
  | vStr s => simp [getF] at h
  | vArr l => simp [getF] at h

/-- Reading a just-written field. -/
theorem getF_setF_self (fs : List (String × Val)) (k : String) (x : Val) :
    getF (setF (.vObj fs) k x) k = some x := by
  simp only [setF, getF]
  exact lookup_objSet_self fs k x

/-- Reading another field through a write. -/
theorem lookup_objSet_ne (fs : List (String × Val)) {k k' : String} (x : Val)
    (h : k ≠ k') : (objSet fs k' x).lookup k = fs.lookup k := by
  induction fs with
  | nil =>
    simp only [objSet, List.lookup_cons, List.lookup_nil]
    simp [show (k == k') = false from by simpa using h]
  | cons p rest ih =>
    obtain ⟨k0, v0⟩ := p
    by_cases h0 : k0 = k'
    · simp only [objSet, if_pos h0]
      rw [List.lookup_cons, List.lookup_cons]
      have hb1 : (k == k') = false := by simpa using h
      have hb2 : (k == k0) = false := by
        simpa using fun he => h (by rw [← he] at h0; exact h0)
      simp only [hb1, hb2]
    · simp only [objSet, if_neg h0]
      rw [List.lookup_cons, List.lookup_cons]
      by_cases hk : k = k0
      · simp [beq_iff_eq.mpr hk]
      · have hb : (k == k0) = false := by simpa using hk
        simp only [hb]
        exact ih

/-- An item with no truthy inline simple type passes through `process`
unchanged, emitting nothing. -/
theorem processInline_id {item : Val} (p n : String)
    (h : truthyO (getF item "xs:simpleType") = false) :
    processInline p n item = (item, []) := by
  rcases hst : getF item "xs:simpleType" with _ | st
  · simp [processInline, hst]
  · rw [hst] at h
    simp only [truthyO] at h
    simp [processInline, hst, h]

/-- Flattening a list of empty lists yields the empty list. -/
theorem flatten_map_nil {α β : Type} (l : List α) :
    (l.map (fun _ => ([] : List β))).flatten = [] := by
  induction l with
  | nil => rfl
  | cons a t ih => simp [ih]

/-- When `f` changes nothing and emits nothing on every occupant, the field
map is the identity. -/
theorem mapField_id {node : Val} {k : String} {f : Val → Val × List Val}
    (h : ∀ el ∈ ensureArray (getF node k), f el = (el, [])) :
    mapField node k f = (node, []) := by
  rcases hg : getF node k with _ | x
  · simp [mapField, hg]
  · cases x with
    | vArr l =>
      have hl : ∀ el ∈ l, f el = (el, []) := by
        intro el hel
        exact h el (by simp [ensureArray, hg, truthy, hel])
      have h1 : l.map f = l.map (fun el => (el, ([] : List Val))) :=
        List.map_congr_left hl
      have hfst : (l.map (fun el => (el, ([] : List Val)))).map Prod.fst = l := by
        rw [List.map_map]
        exact List.map_id l
      have hsnd : ((l.map (fun el => (el, ([] : List Val)))).map Prod.snd).flatten =
          ([] : List Val) := by
        rw [List.map_map]
        exact flatten_map_nil l
      simp only [mapField, hg, h1, hfst, hsnd]
      rw [setF_self hg]
    | vStr s =>
      by_cases ht : truthy (.vStr s)
      · have hfx := h (.vStr s) (by simp [ensureArray, hg, ht])
        simp only [mapField, hg, ht, if_true, hfx]
        rw [setF_self hg]
      · simp only [mapField, hg]
        rw [if_neg ht]
    | vObj fs =>
      have hfx := h (.vObj fs) (by simp [ensureArray, hg, truthy])
      simp only [mapField, hg, truthy, if_true, hfx]
      rw [setF_self hg]

/-- An item that carries no truthy inline `xs:simpleType`. -/
def InlineFreeItem (item : Val) : Prop := truthyO (getF item "xs:simpleType") = false

/-- No inline simple types at the positions `processNodeForInlineTypes`
scans (direct sequence elements, direct attributes). -/
def InlineFreeNode (node : Val) : Prop :=
  (∀ sq, getF node "xs:sequence" = some sq → truthy sq = true →
    ∀ el ∈ ensureArray (getF sq "xs:element"), InlineFreeItem el) ∧
  (∀ attr ∈ ensureArray (getF node "xs:attribute"), InlineFreeItem attr)

/-- No inline simple types at the positions `parseXsd` scans for one
complex type (the type itself and its complex-content extension). -/
def InlineFreeCT (ct : Val) : Prop :=
  InlineFreeNode ct ∧
  (∀ cc, getF ct "xs:complexContent" = some cc →
    ∀ ext, getF cc "xs:extension" = some ext → InlineFreeNode ext)

/-- A scan of an inline-free node changes nothing and emits nothing. -/
theorem processNodeForInlineTypes_id {node : Val} (p : String)
    (h : InlineFreeNode node) : processNodeForInlineTypes node p = (node, []) := by
  obtain ⟨hseq, hattr⟩ := h
  by_cases ht : truthy node
  · have hstep1 : (match getF node "xs:sequence" with
        | some sq =>
          if truthy sq then
            let r := mapField sq "xs:element"
              (fun el => processInline p (nameOrUndefined el "@_name") el)
            (setF node "xs:sequence" r.1, r.2)
          else (node, [])
        | none => (node, ([] : List Val))) = (node, []) := by
      rcases hg : getF node "xs:sequence" with _ | sq
      · rfl
      · by_cases htq : truthy sq
        · have hmf : mapField sq "xs:element"
              (fun el => processInline p (nameOrUndefined el "@_name") el) = (sq, []) :=
            mapField_id (fun el hel => processInline_id p _ (hseq sq hg htq el hel))
          simp only [htq, if_true, hmf]
          rw [setF_self hg]
        · simp only [if_neg htq]
    have hmf2 : mapField node "xs:attribute"
        (fun attr => processInline p ("@_" ++ nameOrUndefined attr "@_name") attr) =
        (node, []) :=
      mapField_id (fun attr hattr' => processInline_id p _ (hattr attr hattr'))
    simp only [processNodeForInlineTypes, ht]
    simp only [if_neg (by simp : ¬ (true : Bool) = false)]
    rw [hstep1]
    simp only [hmf2]
    rfl
  · simp only [processNodeForInlineTypes]
    rw [if_pos (by simpa using ht)]

/-- Processing an inline-free complex type changes nothing and emits
nothing. -/
theorem processComplexType_id {ct : Val} (h : InlineFreeCT ct) :
    processComplexType ct = (ct, []) := by
  obtain ⟨hnode, hext⟩ := h
  have h1 : processNodeForInlineTypes ct (nameOrUndefined ct "@_name") = (ct, []) :=
    processNodeForInlineTypes_id _ hnode
  rcases hcc : getF ct "xs:complexContent" with _ | cc
  · simp [processComplexType, h1, hcc]
  · by_cases htc : truthy cc
    · rcases hex : getF cc "xs:extension" with _ | ext
      · simp [processComplexType, h1, hcc, htc, hex]
      · by_cases hte : truthy ext
        · have h2 : processNodeForInlineTypes ext (nameOrUndefined ct "@_name") =
              (ext, []) := processNodeForInlineTypes_id _ (hext cc hcc ext hex)
          simp [processComplexType, h1, hcc, htc, hex, hte, h2, setF_self hex, setF_self hcc]
        · simp [processComplexType, h1, hcc, htc, hex, hte]
    · simp [processComplexType, h1, hcc, htc]

/-- C9 (amended): parseXsd does mutate parsed schema nodes in place —
inline simple types are rewritten into references, and promoted element
types are appended to an array-valued complexType field — but when no
scanned declaration carries an inline simple type and no top-level element
carries an inline complex type, the input tree is returned structurally
unchanged. -/
theorem parseXsd_no_mutation (schemaObj schema : Val)
    (hs : getF schemaObj "xs:schema" = some schema) (hst : truthy schema = true)
    (hfree : ∀ ct ∈ ensureArray (getF schema "xs:complexType"), InlineFreeCT ct)
    (hnoel : ∀ el ∈ ensureArray (getF schema "xs:element"),
      truthyO (getF el "xs:complexType") = false) :
    ∃ r, parseXsd schemaObj = .ok r ∧ r.schemaAfter = schemaObj := by
  have hmap : (ensureArray (getF schema "xs:complexType")).map processComplexType =
      (ensureArray (getF schema "xs:complexType")).map (fun ct => (ct, ([] : List Val))) :=
    List.map_congr_left (fun ct hct => processComplexType_id (hfree ct hct))
  have hfst : ((ensureArray (getF schema "xs:complexType")).map
        processComplexType).map Prod.fst = ensureArray (getF schema "xs:complexType") := by
    rw [hmap, List.map_map]
    exact List.map_id _
  have hprom : (ensureArray (getF schema "xs:element")).filterMap (fun el =>
      match getF el "xs:complexType" with
      | some ctv =>
        if truthy ctv then some (spreadWithName ctv (getF el "@_name")) else none
      | none => none) = [] := by
    rw [List.filterMap_eq_nil_iff]
    intro el hel
    have hn := hnoel el hel
    rcases hg : getF el "xs:complexType" with _ | ctv
    · rfl
    · rw [hg] at hn
      simp only [truthyO] at hn
      simp [hn]
  simp only [parseXsd, hs]
  rw [if_neg (by simp [hst])]
  refine ⟨_, rfl, ?_⟩
  show (match getF schema "xs:complexType" with
    | some (.vArr _) =>
      setF schemaObj "xs:schema" (setF schema "xs:complexType"
        (.vArr ((((ensureArray (getF schema "xs:complexType")).map
          processComplexType).map Prod.fst) ++
          (ensureArray (getF schema "xs:element")).filterMap (fun el =>
            match getF el "xs:complexType" with
            | some ctv =>
              if truthy ctv then some (spreadWithName ctv (getF el "@_name")) else none
            | none => none))))
    | some x =>
      if truthy x then
        setF schemaObj "xs:schema" (setF schema "xs:complexType"
          ((((ensureArray (getF schema "xs:complexType")).map
            processComplexType).map Prod.fst).headD x))
      else schemaObj
    | none => schemaObj) = schemaObj
  rcases hct : getF schema "xs:complexType" with _ | x
  · rfl
  · rw [hct] at hfst
    cases x with
    | vArr l =>
      show setF schemaObj "xs:schema" (setF schema "xs:complexType"
        (.vArr ((((ensureArray (some (Val.vArr l))).map processComplexType).map Prod.fst) ++
          (ensureArray (getF schema "xs:element")).filterMap (fun el =>
            match getF el "xs:complexType" with
            | some ctv =>
              if truthy ctv then some (spreadWithName ctv (getF el "@_name")) else none
            | none => none)))) = schemaObj
      have hl : ensureArray (some (Val.vArr l)) = l := by simp [ensureArray, truthy]
      rw [hl] at hfst
      rw [hl, hfst, hprom, List.append_nil]
      rw [setF_self hct, setF_self hs]
    | vStr s =>
      show (if truthy (Val.vStr s) = true then
          setF schemaObj "xs:schema" (setF schema "xs:complexType"
            ((((ensureArray (some (Val.vStr s))).map processComplexType).map
              Prod.fst).headD (Val.vStr s)))
        else schemaObj) = schemaObj
      by_cases ht : truthy (.vStr s)
      · have hl : ensureArray (some (Val.vStr s)) = [.vStr s] := by simp [ensureArray, ht]
        rw [hl] at hfst
        rw [if_pos ht, hl, hfst]
        show setF schemaObj "xs:schema" (setF schema "xs:complexType" (.vStr s)) = schemaObj
        rw [setF_self hct, setF_self hs]
      · rw [if_neg ht]
    | vObj fs =>
      show (if truthy (Val.vObj fs) = true then
          setF schemaObj "xs:schema" (setF schema "xs:complexType"
            ((((ensureArray (some (Val.vObj fs))).map processComplexType).map
              Prod.fst).headD (Val.vObj fs)))
        else schemaObj) = schemaObj
      have hl : ensureArray (some (Val.vObj fs)) = [.vObj fs] := by simp [ensureArray, truthy]
      rw [hl] at hfst
      rw [if_pos (by simp [truthy]), hl, hfst]
      show setF schemaObj "xs:schema" (setF schema "xs:complexType" (.vObj fs)) = schemaObj
      rw [setF_self hct, setF_self hs]

/-- Types emitted for one occupant of a mapped field are among the field
map's emitted types. -/
theorem mem_snd_mapField {node : Val} {k : String} {f : Val → Val × List Val}
    {el x : Val} (hel : el ∈ ensureArray (getF node k)) (hx : x ∈ (f el).2) :
    x ∈ (mapField node k f).2 := by
  rcases hg : getF node k with _ | v
  · rw [hg] at hel
    simp [ensureArray] at hel
  · rw [hg] at hel
    cases v with
    | vArr l =>
      have hel' : el ∈ l := by simpa [ensureArray, truthy] using hel
      simp only [mapField, hg]
      refine List.mem_flatten.mpr ⟨(f el).2, ?_, hx⟩
      rw [List.map_map]
      exact List.mem_map.mpr ⟨el, hel', rfl⟩
    | vStr s =>
      by_cases ht : truthy (.vStr s)
      · have heq : el = .vStr s := by simpa [ensureArray, ht] using hel
        subst heq
        simp only [mapField, hg, ht, if_true]
        exact hx
      · simp [ensureArray, ht] at hel
    | vObj fs =>
      have heq : el = .vObj fs := by simpa [ensureArray, truthy] using hel
      subst heq
      simp only [mapField, hg, truthy, if_true]
      exact hx

/-- Types emitted for a sequence element are among the node scan's emitted
types. -/
theorem mem_snd_processNode {node : Val} {p : String} {sq el x : Val}
    (hsq : getF node "xs:sequence" = some sq) (htq : truthy sq = true)
    (hel : el ∈ ensureArray (getF sq "xs:element"))
    (hx : x ∈ (processInline p (nameOrUndefined el "@_name") el).2) :
    x ∈ (processNodeForInlineTypes node p).2 := by
  have hobj : truthy node = true := by
    cases node with
    | vObj fs => rfl
    | vStr s => simp [getF] at hsq
    | vArr l => simp [getF] at hsq
  simp only [processNodeForInlineTypes]
  rw [if_neg (by simp [hobj])]
  simp only [hsq, htq, if_true]
  exact List.mem_append_left _ (mem_snd_mapField hel hx)

/-- Types emitted while scanning a complex type's own node are among the
types emitted for the complex type. -/
theorem mem_snd_processComplexType {ct x : Val}
    (hx : x ∈ (processNodeForInlineTypes ct (nameOrUndefined ct "@_name")).2) :
    x ∈ (processComplexType ct).2 := by
  simp only [processComplexType]
  rcases hcc : getF (processNodeForInlineTypes ct (nameOrUndefined ct "@_name")).1
      "xs:complexContent" with _ | cc
  · exact hx
  · by_cases htc : truthy cc
    · rcases hex : getF cc "xs:extension" with _ | ext
      · simpa [htc, hex] using hx
      · by_cases hte : truthy ext
        · simp only [htc, if_true, hex, hte]
          exact List.mem_append_left _ hx
        · simpa [htc, hex, hte] using hx
    · simpa [htc] using hx

/-- Inline types collected for any scanned complex type surface in the
`simpleTypes` component of `parseXsd`'s result. -/
theorem parseXsd_mem_simpleTypes {schemaObj schema ct x : Val}
    (hs : getF schemaObj "xs:schema" = some schema) (hst : truthy schema = true)
    (hct : ct ∈ ensureArray (getF schema "xs:complexType"))
    (hx : x ∈ (processComplexType ct).2) :
    ∃ r, parseXsd schemaObj = .ok r ∧ x ∈ r.simpleTypes := by
  simp only [parseXsd, hs]
  rw [if_neg (by simp [hst])]
  refine ⟨⟨_, _, _⟩, rfl, ?_⟩
  refine List.mem_append_right _ ?_
  refine List.mem_flatten.mpr ⟨(processComplexType ct).2, ?_, hx⟩
  exact List.mem_map.mpr ⟨processComplexType ct,
    List.mem_map.mpr ⟨ct, hct, rfl⟩, rfl⟩

/-- The rewrite `process` applies to an item with a truthy inline simple
type: type reference set, inline body removed, synthesized type emitted. -/
theorem processInline_rewrites {item st : Val} (p n : String)
    (hst : getF item "xs:simpleType" = some st) (htt : truthy st = true) :
    getStr (processInline p n item).1 "@_type" = some (p ++ "_" ++ n ++ "_Type") ∧
    getF (processInline p n item).1 "xs:simpleType" = none ∧
    (processInline p n item).2 =
      [.vObj (objSet (fieldsOf st) "@_name" (.vStr (p ++ "_" ++ n ++ "_Type")))] := by
  obtain ⟨fs, hobj⟩ : ∃ fs, item = .vObj fs := by
    cases item with
    | vObj fs => exact ⟨fs, rfl⟩
    | vStr s => simp [getF] at hst
    | vArr l => simp [getF] at hst
  subst hobj
  simp only [processInline, hst, htt, if_true]
  refine ⟨?_, ?_, trivial⟩
  · show getStr (delF (setF (.vObj fs) "@_type" (.vStr (p ++ "_" ++ n ++ "_Type")))
      "xs:simpleType") "@_type" = some (p ++ "_" ++ n ++ "_Type")
    simp only [setF, delF, getStr, getF]
    rw [lookup_objDel_ne _ (by decide)]
    rw [lookup_objSet_self]
  · show getF (delF (setF (.vObj fs) "@_type" (.vStr (p ++ "_" ++ n ++ "_Type")))
      "xs:simpleType") "xs:simpleType" = none
    simp only [setF, delF, getF]
    exact lookup_objDel_self _ _

/-- A concrete inline simple type: a restriction of xs:string. -/
def muST : Val := .vObj [("xs:restriction", .vObj [("@_base", .vStr "xs:string")])]

/-- An element declaration carrying the inline simple type instead of a
type reference. -/
def muElem : Val := .vObj [("@_name", .vStr "e"), ("xs:simpleType", muST)]

/-- A sequence holding the single element. -/
def muSeq : Val := .vObj [("xs:element", muElem)]

/-- A complex type named T whose sequence element carries an inline simple
type. -/
def muCT : Val := .vObj [("@_name", .vStr "T"), ("xs:sequence", muSeq)]

/-- A schema node with the single complex type. -/
def muSchema : Val := .vObj [("xs:complexType", muCT)]

/-- A full parsed document for the inline-simple-type scenario. -/
def mutationEx : Val := .vObj [("xs:schema", muSchema)]

/-- The same document, but with the inline simple type's element sitting
inside an xs:choice rather than an xs:sequence. -/
def choiceInlineEx : Val :=
  .vObj [("xs:schema", .vObj [("xs:complexType", .vObj [("@_name", .vStr "T"),
    ("xs:choice", .vObj [("xs:element", muElem)])])])]

/-- Reading another field through a field write. -/
theorem getF_setF_ne (v : Val) {k k' : String} (x : Val) (h : k' ≠ k) :
    getF (setF v k x) k' = getF v k' := by
  cases v with
  | vObj fs =>
    simp only [setF, getF]
    exact lookup_objSet_ne fs x h
  | vStr s => rfl
  | vArr l => rfl

/-- Scanning one field leaves every other field of the node unchanged. -/
theorem getF_fst_mapField_ne {node : Val} {k : String} {f : Val → Val × List Val}
    {k' : String} (h : k' ≠ k) : getF (mapField node k f).1 k' = getF node k' := by
  rcases hg : getF node k with _ | v
  · simp only [mapField, hg]
  · cases v with
    | vArr l =>
      simp only [mapField, hg]
      exact getF_setF_ne node _ h
    | vStr s =>
      simp only [mapField, hg]
      by_cases ht : truthy (Val.vStr s) = true
      · rw [if_pos ht]
        exact getF_setF_ne node _ h
      · rw [if_neg ht]
    | vObj fs =>
      simp only [mapField, hg]
      by_cases ht : truthy (Val.vObj fs) = true
      · rw [if_pos ht]
        exact getF_setF_ne node _ h
      · rw [if_neg ht]

/-- A node scan touches only the sequence and attribute entries: every
other field reads the same afterwards. -/
theorem getF_fst_processNode_ne {node : Val} {p k : String}
    (h1 : k ≠ "xs:sequence") (h2 : k ≠ "xs:attribute") :
    getF (processNodeForInlineTypes node p).1 k = getF node k := by
  simp only [processNodeForInlineTypes]
  by_cases htn : truthy node = false
  · rw [if_pos htn]
  · rw [if_neg htn]
    rcases hsq : getF node "xs:sequence" with _ | sq
    · simp only [hsq]
      exact getF_fst_mapField_ne h2
    · simp only [hsq]
      by_cases htq : truthy sq = true
      · rw [if_pos htq]
        rw [getF_fst_mapField_ne h2]
        exact getF_setF_ne node _ h1
      · rw [if_neg htq]
        exact getF_fst_mapField_ne h2

/-- A value with a readable field is an object, hence truthy. -/
theorem truthy_of_getF_eq_some {node : Val} {k : String} {v : Val}
    (h : getF node k = some v) : truthy node = true := by
  cases node with
  | vObj fs => rfl
  | vStr s => simp [getF] at h
  | vArr l => simp [getF] at h

/-- Types emitted for a direct attribute are among the node scan's emitted
types (the attribute pass runs on the node as left by the sequence pass,
which does not move the attribute entry). -/
theorem mem_snd_processNode_attr {node : Val} {p : String} {attr x : Val}
    (hattr : attr ∈ ensureArray (getF node "xs:attribute"))
    (hx : x ∈ (processInline p ("@_" ++ nameOrUndefined attr "@_name") attr).2) :
    x ∈ (processNodeForInlineTypes node p).2 := by
  have hsome : ∃ v, getF node "xs:attribute" = some v := by
    rcases hg : getF node "xs:attribute" with _ | v
    · rw [hg] at hattr
      simp [ensureArray] at hattr
    · exact ⟨v, rfl⟩
  obtain ⟨v, hv⟩ := hsome
  have hobj : truthy node = true := truthy_of_getF_eq_some hv
  simp only [processNodeForInlineTypes]
  rw [if_neg (by simp [hobj])]
  rcases hsq : getF node "xs:sequence" with _ | sq
  · simp only [hsq]
    exact List.mem_append_right _ (mem_snd_mapField hattr hx)
  · simp only [hsq]
    by_cases htq : truthy sq = true
    · rw [if_pos htq]
      refine List.mem_append_right _ ?_
      refine mem_snd_mapField ?_ hx
      rw [getF_setF_ne node _ (by decide)]
      exact hattr
    · rw [if_neg htq]
      exact List.mem_append_right _ (mem_snd_mapField hattr hx)

/-- Types emitted while scanning a complex type's truthy complex-content
extension are among the types emitted for the complex type. -/
theorem mem_snd_processComplexType_ext {ct cc ext x : Val}
    (hcc : getF ct "xs:complexContent" = some cc) (htc : truthy cc = true)
    (hex : getF cc "xs:extension" = some ext) (hte : truthy ext = true)
    (hx : x ∈ (processNodeForInlineTypes ext (nameOrUndefined ct "@_name")).2) :
    x ∈ (processComplexType ct).2 := by
  have hcc2 : getF (processNodeForInlineTypes ct (nameOrUndefined ct "@_name")).1
      "xs:complexContent" = some cc := by
    rw [getF_fst_processNode_ne (by decide) (by decide)]
    exact hcc
  simp only [processComplexType, hcc2, htc, if_true, hex, hte]
  exact List.mem_append_right _ hx

/-- The two positions `processNodeForInlineTypes` scans on one node —
elements of its direct truthy xs:sequence, and its direct attributes — with
the property name the source passes to `process` (attributes carry the
`@_` marker). -/
def ScannedInlineDecl (node item : Val) (propName : String) : Prop :=
  (∃ sq, getF node "xs:sequence" = some sq ∧ truthy sq = true ∧
    item ∈ ensureArray (getF sq "xs:element") ∧
    propName = nameOrUndefined item "@_name") ∨
  (item ∈ ensureArray (getF node "xs:attribute") ∧
    propName = "@_" ++ nameOrUndefined item "@_name")

/-- The two nodes `parseXsd` scans for one complex type: the type itself,
and its truthy complex-content extension. -/
def ScannedOwner (ct node : Val) : Prop :=
  node = ct ∨
  (∃ cc ext, getF ct "xs:complexContent" = some cc ∧ truthy cc = true ∧
    getF cc "xs:extension" = some ext ∧ truthy ext = true ∧ node = ext)

/-- C6 (amended): for every declaration the parser scans — an element of
the direct top-level xs:sequence, or a direct attribute, of a scanned
complex type or of its truthy complexContent extension — that carries a
truthy inline xs:simpleType body, parseXsd succeeds and appends to the
returned simpleTypes collection a synthesized simple type: the inline body
with its @_name set to exactly {ownerTypeName}_{propertyName}_Type
(for attributes the property name carries the @_ marker), while the rewrite
applied to the owning declaration sets its @_type reference to that name
and removes the embedded body. Declarations elsewhere in the content model
are not scanned. -/
theorem parseXsd_inline_simpleType_promoted
    {schemaObj schema ct node item st : Val} {propName : String}
    (hs : getF schemaObj "xs:schema" = some schema) (hts : truthy schema = true)
    (hct : ct ∈ ensureArray (getF schema "xs:complexType"))
    (howner : ScannedOwner ct node)
    (hdecl : ScannedInlineDecl node item propName)
    (hity : getF item "xs:simpleType" = some st) (htt : truthy st = true) :
    ∃ r, parseXsd schemaObj = .ok r ∧
      Val.vObj (objSet (fieldsOf st) "@_name"
          (.vStr (nameOrUndefined ct "@_name" ++ "_" ++
            propName ++ "_Type"))) ∈ r.simpleTypes ∧
      getStr (processInline (nameOrUndefined ct "@_name")
          propName item).1 "@_type" =
        some (nameOrUndefined ct "@_name" ++ "_" ++ propName ++ "_Type") ∧
      getF (processInline (nameOrUndefined ct "@_name")
          propName item).1 "xs:simpleType" = none := by
  obtain ⟨h1, h2, h3⟩ := processInline_rewrites (nameOrUndefined ct "@_name")
    propName hity htt
  have hx : Val.vObj (objSet (fieldsOf st) "@_name"
      (.vStr (nameOrUndefined ct "@_name" ++ "_" ++ propName ++ "_Type"))) ∈
      (processInline (nameOrUndefined ct "@_name") propName item).2 := by
    rw [h3]
    exact List.mem_singleton.mpr rfl
  have hx2 : Val.vObj (objSet (fieldsOf st) "@_name"
      (.vStr (nameOrUndefined ct "@_name" ++ "_" ++ propName ++ "_Type"))) ∈
      (processNodeForInlineTypes node (nameOrUndefined ct "@_name")).2 := by
    rcases hdecl with ⟨sq, hsq, htq, hel, hpn⟩ | ⟨hattr, hpn⟩
    · subst hpn
      exact mem_snd_processNode hsq htq hel hx
    · subst hpn
      exact mem_snd_processNode_attr hattr hx
  have hx3 : Val.vObj (objSet (fieldsOf st) "@_name"
      (.vStr (nameOrUndefined ct "@_name" ++ "_" ++ propName ++ "_Type"))) ∈
      (processComplexType ct).2 := by
    rcases howner with h | ⟨cc, ext, hcc, htc, hex, hte, hne⟩
    · subst h
      exact mem_snd_processComplexType hx2
    · subst hne
      exact mem_snd_processComplexType_ext hcc htc hex hte hx2
  obtain ⟨r, hok, hmem⟩ := parseXsd_mem_simpleTypes hs hts hct hx3
  exact ⟨r, hok, hmem, h1, h2⟩

/-- C6 counterexample: the same inline-simple-type element placed inside an
xs:choice — "anywhere in the content model" per the original claim — is not
promoted: parseXsd returns an empty simpleTypes collection and the
declaration keeps its embedded body (the tree is unchanged). -/
theorem parseXsd_choice_inline_cex :
    getF muElem "xs:simpleType" = some muST ∧ truthy muST = true ∧
    (parseXsd choiceInlineEx).toOption.map ParseResult.simpleTypes = some [] ∧
    (parseXsd choiceInlineEx).toOption.map ParseResult.schemaAfter =
      some choiceInlineEx := by
  decide

/-- An attribute declaration carrying the inline simple type. -/
def exAttr : Val := .vObj [("@_name", .vStr "a"), ("xs:simpleType", muST)]

/-- An extension node holding the attribute. -/
def exExt : Val := .vObj [("@_base", .vStr "BaseT"), ("xs:attribute", exAttr)]

/-- A complex-content node holding the extension. -/
def exCC : Val := .vObj [("xs:extension", exExt)]

/-- A complex type named U whose complex-content extension carries the
inline-typed attribute. -/
def exCT : Val := .vObj [("@_name", .vStr "U"), ("xs:complexContent", exCC)]

/-- A schema node with the extension-bearing complex type. -/
def exSchema : Val := .vObj [("xs:complexType", exCT)]

/-- A full parsed document for the extension-attribute scenario. -/
def extInlineEx : Val := .vObj [("xs:schema", exSchema)]

/-- C6 witness: the theorem applied to both scan paths — the sequence
element of T (synthesized type T_e_Type) and the attribute of U's
complex-content extension (synthesized type U_@_a_Type, with the @_ marker
in the property name). -/
theorem parseXsd_inline_simpleType_promoted_witness :
    (∃ r, parseXsd mutationEx = .ok r ∧
      Val.vObj (objSet (fieldsOf muST) "@_name"
          (.vStr (nameOrUndefined muCT "@_name" ++ "_" ++
            nameOrUndefined muElem "@_name" ++ "_Type"))) ∈ r.simpleTypes ∧
      getStr (processInline (nameOrUndefined muCT "@_name")
          (nameOrUndefined muElem "@_name") muElem).1 "@_type" =
        some (nameOrUndefined muCT "@_name" ++ "_" ++
          nameOrUndefined muElem "@_name" ++ "_Type") ∧
      getF (processInline (nameOrUndefined muCT "@_name")
          (nameOrUndefined muElem "@_name") muElem).1 "xs:simpleType" = none) ∧
    (∃ r, parseXsd extInlineEx = .ok r ∧
      Val.vObj (objSet (fieldsOf muST) "@_name"
          (.vStr (nameOrUndefined exCT "@_name" ++ "_" ++
            ("@_" ++ nameOrUndefined exAttr "@_name") ++ "_Type"))) ∈ r.simpleTypes ∧
      getStr (processInline (nameOrUndefined exCT "@_name")
          ("@_" ++ nameOrUndefined exAttr "@_name") exAttr).1 "@_type" =
        some (nameOrUndefined exCT "@_name" ++ "_" ++
          ("@_" ++ nameOrUndefined exAttr "@_name") ++ "_Type") ∧
      getF (processInline (nameOrUndefined exCT "@_name")
          ("@_" ++ nameOrUndefined exAttr "@_name") exAttr).1 "xs:simpleType" =
        none) :=
  ⟨@parseXsd_inline_simpleType_promoted mutationEx muSchema muCT muCT muElem muST
      (nameOrUndefined muElem "@_name")
      (by decide) (by decide) (by decide) (Or.inl rfl)
      (Or.inl ⟨muSeq, by decide, by decide, by decide, rfl⟩)
      (by decide) (by decide),
    @parseXsd_inline_simpleType_promoted extInlineEx exSchema exCT exExt exAttr muST
      ("@_" ++ nameOrUndefined exAttr "@_name")
      (by decide) (by decide) (by decide)
      (Or.inr ⟨exCC, exExt, by decide, by decide, by decide, by decide, rfl⟩)
      (Or.inr ⟨by decide, rfl⟩)
      (by decide) (by decide)⟩
/-- A document whose root key is present but holds a falsy value (the empty
string, as fast-xml-parser produces for an empty element). -/
def emptyRootEx : Val := .vObj [("xs:schema", .vStr "")]

/-- C8 (amended): parseXsd throws its schema-structure error if and only if
the xs:schema entry of its input is falsy — absent, or present with a falsy
value such as an empty element parsed to the empty string; when the root is
truthy, parseXsd returns a result without raising. -/
theorem parseXsd_error_iff (s : Val) :
    (∃ e, parseXsd s = .error e) ↔ truthyO (getF s "xs:schema") = false := by
  constructor
  · rintro ⟨e, he⟩
    rcases hg : getF s "xs:schema" with _ | schema
    · rfl
    · by_cases ht : truthy schema
      · exfalso
        simp only [parseXsd, hg] at he
        rw [if_neg (by simp [ht])] at he
        exact Except.noConfusion he
      · simp only [truthyO, hg]
        exact Bool.not_eq_true _ ▸ ht
  · intro hf
    rcases hg : getF s "xs:schema" with _ | schema
    · exact ⟨"Invalid XSD schema: <xs:schema> tag not found.", by
        simp only [parseXsd, hg]⟩
    · rw [hg] at hf
      simp only [truthyO] at hf
      exact ⟨"Invalid XSD schema: <xs:schema> tag not found.", by
        simp only [parseXsd, hg]
        rw [if_pos hf]⟩

/-- C8 counterexample: a document in which the xs:schema key is present —
not absent, as the original claim requires for an error — yet parseXsd
still throws, because the value is falsy. -/
theorem parseXsd_empty_root_cex :
    getF emptyRootEx "xs:schema" = some (.vStr "") ∧
    (∃ e, parseXsd emptyRootEx = .error e) :=
  ⟨by decide, ⟨"Invalid XSD schema: <xs:schema> tag not found.", by rfl⟩⟩

/-- C8 witness: the amended criterion evaluated on the falsy-root document
via the theorem. -/
theorem parseXsd_error_iff_witness :
    ∃ e, parseXsd emptyRootEx = .error e :=
  (parseXsd_error_iff emptyRootEx).mpr (by decide)

/-- An element declaration that references its type instead of embedding
one. -/
def niElem : Val := .vObj [("@_name", .vStr "e"), ("@_type", .vStr "xs:string")]

/-- A sequence holding the reference-typed element. -/
def niSeq : Val := .vObj [("xs:element", niElem)]

/-- A complex type with no inline simple type anywhere the parser scans. -/
def niCT : Val := .vObj [("@_name", .vStr "T"), ("xs:sequence", niSeq)]

/-- A schema node holding only the inline-free complex type. -/
def niSchema : Val := .vObj [("xs:complexType", niCT)]

/-- A full parsed document with no inline types to rewrite. -/
def noInlineEx : Val := .vObj [("xs:schema", niSchema)]

/-- C9 counterexample: on a schema with an inline simple type, parseXsd
succeeds but hands back a structurally different tree — the parsed input is
not treated as immutable. -/
theorem parseXsd_mutation_cex :
    (parseXsd mutationEx).toOption.isSome = true ∧
    (parseXsd mutationEx).toOption.map ParseResult.schemaAfter ≠ some mutationEx := by
  decide

/-- C9 witness: the inline-free document evaluated; parseXsd returns it
structurally unchanged. -/
theorem parseXsd_no_mutation_witness :
    ∃ r, parseXsd noInlineEx = .ok r ∧ r.schemaAfter = noInlineEx :=
  parseXsd_no_mutation noInlineEx niSchema (by decide) (by decide)
    (by
      intro ct hct
      have harr : ensureArray (getF niSchema "xs:complexType") = [niCT] := by decide
      rw [harr] at hct
      have hc : ct = niCT := by simpa using hct
      subst hc
      refine ⟨⟨?_, ?_⟩, ?_⟩
      · intro sq hsq _ el hel
        have hq : getF niCT "xs:sequence" = some niSeq := by decide
        rw [hq] at hsq
        have hsq' : sq = niSeq := (Option.some.inj hsq).symm
        subst hsq'
        have he : ensureArray (getF niSeq "xs:element") = [niElem] := by decide
        rw [he] at hel
        have hel' : el = niElem := by simpa using hel
        subst hel'
        show truthyO (getF niElem "xs:simpleType") = false
        decide
      · intro attr hattr
        have ha : ensureArray (getF niCT "xs:attribute") = [] := by decide
        rw [ha] at hattr
        exact absurd hattr (List.not_mem_nil attr)
      · intro cc hcc
        have h0 : getF niCT "xs:complexContent" = none := by decide
        rw [h0] at hcc
        exact Option.noConfusion hcc)
    (by
      intro el hel
      have h0 : ensureArray (getF niSchema "xs:element") = [] := by decide
      rw [h0] at hel
      exact absurd hel (List.not_mem_nil el))

/-!
Embedding of the constructor statements emitted by `templateConstructorBody`
(`src/codeTemplate.js`). The generated statement for each property is
modelled by its runtime effect: the value the constructor stores for that
property when run on a source-data object. `XSD_TYPE_TO_JS` is the map from
`src/base.js`.
-/

/-- `XSD_TYPE_TO_JS` from `src/base.js`. -/
def XSD_TYPE_TO_JS : List (String × String) :=
  [("xs:string", "string"), ("xs:date", "Date"), ("xs:dateTime", "string"),
   ("xs:int", "number"), ("xs:integer", "number"), ("xs:decimal", "number"),
   ("xs:boolean", "boolean"), ("xs:long", "number"), ("xs:double", "number")]

/-- `XSD_TYPE_TO_JS[t]` as an option. -/
def xsdTypeToJs (t : String) : Option String := XSD_TYPE_TO_JS.lookup t

/-- JS truthiness of an optional string (`undefined` and `""` are falsy). -/
def truthyStrO : Option String → Bool
  | none => false
  | some s => !s.isEmpty

/-- `[].concat(v)`: an array is spread one level, anything else is wrapped
into a one-element array. -/
def concatArr : Val → List Val
  | .vArr l => l
  | v => [v]

/-- The value a generated constructor statement stores: `undefined`, a
plain value copied from the data, a dependent-type instance `new cls(arg)`,
a list of copied values, or a list with one `new cls(e)` instance per
entry `e`. -/
inductive CVal where
  | undefinedV
  | prim (v : Val)
  | inst (cls : String) (arg : Val)
  | listPrim (elems : List Val)
  | listInst (cls : String) (elems : List Val)
deriving DecidableEq, Repr

/-- A data access that is `undefined` when the key is absent. -/
def optPrim : Option Val → CVal
  | some v => .prim v
  | none => .undefinedV

/-- JS `a || b` over optional values. -/
def jsOrV (a b : Option Val) : Option Val :=
  if truthyO a then a else b

/-- `t.startsWith("xs:")`, over the character list. -/
def startsWithXs (t : String) : Bool :=
  match t.data with
  | 'x' :: 's' :: ':' :: _ => true
  | _ => false

/-- `prop.type.startsWith("xs:") ? XSD_TYPE_TO_JS[prop.type] :
prop.type.split(":").pop()` (an unmapped `xs:` type interpolates as the
string `"undefined"`). -/
def dependencyNameOf (t : String) : String :=
  if startsWithXs t then jsOrStr (xsdTypeToJs t) "undefined"
  else stripQualifier t

/-- The runtime effect of the statement `templateConstructorBody` emits for
property `p`, run on the source object `data` (branch for branch: the
text-content property reads `data["#text"]` with a fallback on the property
name; a primitive property copies the attribute's or element's value; a
typed list property coerces `data.name` with `[].concat` and, for a
non-primitive type, constructs one dependent instance per entry, falsy data
giving the empty list; a typed single property reads
`data[xmlName] || data[name]` and wraps it in a dependent instance when
truthy; everything else copies `data.name`). `generateAccessors` only
renames the backing field and is not modelled. -/
def constructProp (p : Property) (data : Val) : CVal :=
  if p.xmlName = "#text" then
    match getF data "#text" with
    | some v => .prim v
    | none => optPrim (getF data p.name)
  else if truthyStrO (p.type.bind xsdTypeToJs) then
    (if p.isAttribute then optPrim (getF data p.xmlName)
     else optPrim (getF data p.name))
  else
    match p.type with
    | some t =>
      if t.isEmpty then optPrim (getF data p.name)
      else if p.isList then
        if truthyStrO (xsdTypeToJs t) then
          match getF data p.name with
          | some v => if truthy v then .listPrim (concatArr v) else .listPrim []
          | none => .listPrim []
        else
          match getF data p.name with
          | some v =>
            if truthy v then .listInst (dependencyNameOf t) (concatArr v)
            else .listInst (dependencyNameOf t) []
          | none => .listInst (dependencyNameOf t) []
      else
        let dv := jsOrV (getF data p.xmlName) (getF data p.name)
        if truthyStrO (xsdTypeToJs t) then optPrim dv
        else
          match dv with
          | some v => if truthy v then .inst (dependencyNameOf t) v else .undefinedV
          | none => .undefinedV
    | none => optPrim (getF data p.name)

/-- C7: for a list property of non-primitive declared type (not the text
property), the generated constructor statement coerces the truthy source
value to a list with one dependent-type instance per entry: a non-array
occurrence yields a one-element list, an array yields one entry per
element. -/
theorem templateConstructorBody_list_coercion (p : Property) (t : String)
    (data v : Val)
    (htype : p.type = some t) (hmap : xsdTypeToJs t = none)
    (hne : t.isEmpty = false) (htext : p.xmlName ≠ "#text")
    (hlist : p.isList = true)
    (hdata : getF data p.name = some v) (htr : truthy v = true) :
    constructProp p data = .listInst (dependencyNameOf t) (concatArr v) ∧
    (∀ fs, v = .vObj fs → (concatArr v).length = 1) ∧
    (∀ s, v = .vStr s → (concatArr v).length = 1) ∧
    (∀ l, v = .vArr l → (concatArr v).length = l.length) := by
  refine ⟨?_, ?_, ?_, ?_⟩
  · simp only [constructProp, htype, hmap, hlist, hdata, htr, hne,
      Option.some_bind, truthyStrO, Bool.false_eq_true, if_false,
      if_neg htext, if_true]
  · intro fs h
    subst h
    rfl
  · intro s h
    subst h
    rfl
  · intro l h
    subst h
    rfl

/-- A list property of dependent type `tns:Item`. -/
def itemsProp : Property :=
  ⟨"Items", "Items", some "tns:Item", true, some "tns:Item", false, false, false⟩

/-- A single (non-array) occurrence of the dependent element. -/
def csSingle : Val := .vObj [("Name", .vStr "a")]

/-- Three occurrences of the dependent element. -/
def csArr3 : Val := .vArr [.vStr "a", .vStr "b", .vStr "c"]

/-- Source data carrying the single occurrence. -/
def csData1 : Val := .vObj [("Items", csSingle)]

/-- Source data carrying the three occurrences. -/
def csData3 : Val := .vObj [("Items", csArr3)]

/-- C7 witness: the coercion evaluated on a single occurrence (list of
length 1, one Item instance) and on three occurrences (list of length 3),
via the theorem. -/
theorem templateConstructorBody_list_coercion_witness :
    (constructProp itemsProp csData1 = .listInst "Item" [csSingle] ∧
      (concatArr csSingle).length = 1) ∧
    (constructProp itemsProp csData3 =
        .listInst "Item" [.vStr "a", .vStr "b", .vStr "c"] ∧
      (concatArr csArr3).length = 3) := by
  have h1 := templateConstructorBody_list_coercion itemsProp "tns:Item" csData1 csSingle
    (by decide) (by decide) (by decide) (by decide) (by decide) (by decide) (by decide)
  have h3 := templateConstructorBody_list_coercion itemsProp "tns:Item" csData3 csArr3
    (by decide) (by decide) (by decide) (by decide) (by decide) (by decide) (by decide)
  refine ⟨⟨h1.1.trans (by decide), h1.2.1 _ rfl⟩,
    ⟨h3.1.trans (by decide), (h3.2.2.2 _ rfl).trans (by decide)⟩⟩
